import Mathlib

/-!
Verification of the CascadeLang core runtime graph engine
(`src/runtime/heap.ts` plus the interpreter's array-index assignment path).

Shallow embedding notes:

* JavaScript `Map` objects are modelled as insertion-ordered association
  lists with unique keys (`Map.set` on an existing key updates in place,
  on a fresh key appends; `Map.delete` removes the unique entry, which on
  lists with unique keys coincides with removing every entry of that key).
* JavaScript `Set<string>` objects holding back-edge keys
  `"${parentId}.${fieldName}"` are modelled as duplicate-free lists of
  `(parentId, fieldName)` pairs; `deleteObjectCascade` recovers the pair
  by `parentKey.split(".")`, which is the identity on this encoding as
  long as field names contain no dot (all field names produced by the
  language are identifiers or decimal indices).
* Numbers are modelled by `Value.vnum : Nat`.  The heap compares stored
  numbers against live identifiers (`typeof value === "number" &&
  this.objects.has(value)`); identifiers are positive naturals, and
  negative or fractional numbers never pass that test, so `Nat` covers
  the behaviour the tracking logic can distinguish.
* The `while (toDelete.length)` loop of `deleteObjectCascade` is run with
  explicit fuel; `Heap.cascadeFuel` computes a bound that is proven
  sufficient (`runCascade_terminates`), so the embedded function computes
  the same final heap as the source loop.
-/

/-- Primitive values storable in heap fields: number, boolean, string or
null.  Callables never reach the heap in the source. -/
inductive Value where
  | vnull : Value
  | vnum : Nat → Value
  | vbool : Bool → Value
  | vstr : String → Value
deriving DecidableEq

/-- One registered field descriptor of a struct schema (`FieldSpec`). -/
structure FieldSpec where
  name : String
  optional : Bool
deriving DecidableEq

/-- A registered type schema (`TypeSpec`). -/
structure TypeSpec where
  name : String
  fields : List FieldSpec
deriving DecidableEq

/-- A heap object record (`HeapObject`): optional type name and the
insertion-ordered field map. -/
structure HeapObject where
  typeName : Option String
  fields : List (String × Value)
deriving DecidableEq

/-- Lookup in an insertion-ordered association list (JS `Map.get`). -/
def lookupA {α β : Type} [DecidableEq α] : List (α × β) → α → Option β
  | [], _ => none
  | (k', v') :: rest, k => if k' = k then some v' else lookupA rest k

/-- Update/insert in an association list (JS `Map.set`): replace the
entry in place if the key is present, append otherwise. -/
def setAssoc {α β : Type} [DecidableEq α] : List (α × β) → α → β → List (α × β)
  | [], k, v => [(k, v)]
  | (k', v') :: rest, k, v => if k' = k then (k, v) :: rest else (k', v') :: setAssoc rest k v

/-- Removal from an association list (JS `Map.delete`).  Keys are unique
in every reachable map, so removing all entries of the key is the same
as removing the unique one. -/
def eraseA {α β : Type} [DecidableEq α] (l : List (α × β)) (k : α) : List (α × β) :=
  l.filter (fun kv => decide (kv.1 ≠ k))

/-- Add to a set modelled as a duplicate-free list (JS `Set.add`):
no-op when present, append otherwise. -/
def addToSet {α : Type} [DecidableEq α] (s : List α) (x : α) : List α :=
  if x ∈ s then s else s ++ [x]

/-- Remove one occurrence from a set modelled as a list (JS `Set.delete`). -/
def removeFirst {α : Type} [DecidableEq α] : List α → α → List α
  | [], _ => []
  | x :: xs, y => if x = y then xs else x :: removeFirst xs y

/-- The heap (`class Heap`): identifier counter, forward store, type
registry and reverse-reference index. -/
structure Heap where
  nextId : Nat
  objects : List (Nat × HeapObject)
  types : List (String × TypeSpec)
  incoming : List (Nat × List (Nat × String))
deriving DecidableEq

/-- The freshly constructed heap (`nextId = 1`, everything empty). -/
def Heap.empty : Heap := ⟨1, [], [], []⟩

/-- Heap.defineType: registers a schema, replacing any prior one. -/
def Heap.defineType (h : Heap) (spec : TypeSpec) : Heap :=
  { h with types := setAssoc h.types spec.name spec }

/-- Liveness test: present in the forward map (`objects.has`). -/
def Heap.isLive (h : Heap) (id : Nat) : Bool :=
  (lookupA h.objects id).isSome

/-- The reverse index of a child: its set of back-edges, empty when the
child has no entry (`incoming.get(value) ?? new Set()`). -/
def Heap.incomingOf (h : Heap) (c : Nat) : List (Nat × String) :=
  (lookupA h.incoming c).getD []

/-- The type name of an object record, none when dead. -/
def Heap.typeNameOf (h : Heap) (id : Nat) : Option String :=
  match lookupA h.objects id with
  | some o => o.typeName
  | none => none

/-- Heap.trackIncomingIfObject: if the value is a number naming a live
object, add the back-edge to that object's reverse index. -/
def Heap.trackIncomingIfObject (h : Heap) (v : Value) (pk : Nat × String) : Heap :=
  match v with
  | Value.vnum n =>
    if (lookupA h.objects n).isSome then
      { h with incoming := setAssoc h.incoming n (addToSet (h.incomingOf n) pk) }
    else h
  | _ => h

/-- Heap.untrackIncomingIfObject: if the value is a number naming a live
object, remove the back-edge from its reverse index, dropping the index
entry when the set becomes empty. -/
def Heap.untrackIncomingIfObject (h : Heap) (v : Value) (pk : Nat × String) : Heap :=
  match v with
  | Value.vnum n =>
    if (lookupA h.objects n).isSome then
      match lookupA h.incoming n with
      | some s =>
        if removeFirst s pk = [] then { h with incoming := eraseA h.incoming n }
        else { h with incoming := setAssoc h.incoming n (removeFirst s pk) }
      | none => h
    else h
  | _ => h

/-- Heap.getObject. -/
def Heap.getObject (h : Heap) (id : Nat) : Option HeapObject :=
  lookupA h.objects id

/-- Heap.getField: `objects.get(id)?.fields.get(name)`; `none` models
the JS `undefined` produced when the object is dead or the field absent. -/
def Heap.getField (h : Heap) (id : Nat) (name : String) : Option Value :=
  match lookupA h.objects id with
  | some o => lookupA o.fields name
  | none => none

/-- Heap.isFieldMandatory: true iff the type is registered, the field is
in its schema and its optional flag is false. -/
def Heap.isFieldMandatory (h : Heap) (typeName : Option String) (fieldName : String) : Bool :=
  match typeName with
  | none => false
  | some tn =>
    match lookupA h.types tn with
    | none => false
    | some spec =>
      match spec.fields.find? (fun fs => decide (fs.name = fieldName)) with
      | none => false
      | some fs => !fs.optional

/-- A raw forward-map write, `obj.fields.set(key, v)` on a fetched
record: no reverse-index maintenance.  Used by `createArray`,
`arrayPush`, the cascade and the interpreter's index-assignment path. -/
def Heap.setRawField (h : Heap) (id : Nat) (k : String) (v : Value) : Heap :=
  match lookupA h.objects id with
  | some o => { h with objects := setAssoc h.objects id { o with fields := setAssoc o.fields k v } }
  | none => h

/-- The field map built from the `initial` record of `createObject`
(`for (const [k, v] of Object.entries(initial)) fields.set(k, v)`). -/
def buildFields : List (String × Value) → List (String × Value) → List (String × Value)
  | acc, [] => acc
  | acc, (k, v) :: rest => buildFields (setAssoc acc k v) rest

/-- The registration loop of `createObject`: track every object-valued
initial field. -/
def Heap.trackAll (h : Heap) (id : Nat) : List (String × Value) → Heap
  | [] => h
  | (k, v) :: rest => (h.trackIncomingIfObject v (id, k)).trackAll id rest

/-- Heap.createObject: allocate the next identifier, install the initial
fields, then register incoming edges for object-valued fields. -/
def Heap.createObject (h : Heap) (typeName : Option String) (initial : List (String × Value)) :
    Nat × Heap :=
  let id := h.nextId
  let obj : HeapObject := ⟨typeName, buildFields [] initial⟩
  let h1 : Heap := { h with nextId := id + 1, objects := setAssoc h.objects id obj }
  (id, h1.trackAll id obj.fields)

/-- The element loop of `createArray`: store each element under its
decimal index and track it, in order. -/
def Heap.setArrayElems (h : Heap) (id : Nat) (i : Nat) : List Value → Heap
  | [] => h
  | v :: rest =>
    (((h.setRawField id (toString i) v).trackIncomingIfObject v (id, toString i)).setArrayElems
      id (i + 1) rest)

/-- Heap.createArray: allocate an `__array__` object, install element
slots at numeric field names, set `length`. -/
def Heap.createArray (h : Heap) (elements : List Value) : Nat × Heap :=
  let p := h.createObject (some "__array__") []
  let h2 := p.2.setArrayElems p.1 0 elements
  (p.1, h2.setRawField p.1 "length" (Value.vnum elements.length))

/-- Heap.arrayPush: append at index `length`, increment `length`, track
the back-edge if the value is a live object identifier.  Dead ids and
non-arrays are silent no-ops. -/
def Heap.arrayPush (h : Heap) (id : Nat) (value : Value) : Heap :=
  match lookupA h.objects id with
  | none => h
  | some o =>
    if o.typeName = some "__array__" then
      let len : Nat :=
        match lookupA o.fields "length" with
        | some (Value.vnum n) => n
        | _ => 0
      (((h.setRawField id (toString len) value).setRawField id "length"
        (Value.vnum (len + 1))).trackIncomingIfObject value (id, toString len))
    else h

/-- State of the `deleteObjectCascade` loop: current heap, work stack
(top at the head; the JS array pops from the end) and visited set. -/
structure CascadeState where
  heap : Heap
  stack : List Nat
  visited : List Nat
deriving DecidableEq

/-- Processing of one back-edge `(pid, fieldName)` during step 1 of a
`deleteObjectCascade` iteration: read `prev`, null the parent's forward
field, then untrack `prev` from the reverse index. -/
def stepHeap (h : Heap) (pid : Nat) (fieldName : String) (parent : HeapObject) : Heap :=
  let parent' : HeapObject :=
    { parent with fields := setAssoc parent.fields fieldName Value.vnull }
  let h1 : Heap := { h with objects := setAssoc h.objects pid parent' }
  match lookupA parent.fields fieldName with
  | some pv => h1.untrackIncomingIfObject pv (pid, fieldName)
  | none => h1

/-- Step 1 of an iteration of `deleteObjectCascade`: for each back-edge
of the object being destroyed, null the parent's forward field, remove
the back-edge, and collect the parent for deletion when the field is
mandatory for its type.  The collected parents are accumulated so that
the head of the result is the last push, matching the LIFO order of the
JS array. -/
def processIncoming : List (Nat × String) → Heap → List Nat → Heap × List Nat
  | [], h, acc => (h, acc)
  | (pid, fieldName) :: rest, h, acc =>
    match lookupA h.objects pid with
    | none => processIncoming rest h acc
    | some parent =>
      let h2 := stepHeap h pid fieldName parent
      let acc' := if h2.isFieldMandatory parent.typeName fieldName then pid :: acc else acc
      processIncoming rest h2 acc'

/-- Step 2 of an iteration: untrack every outgoing reference of the
object being destroyed. -/
def untrackOutgoing (curId : Nat) : List (String × Value) → Heap → Heap
  | [], h => h
  | (k, v) :: rest, h => untrackOutgoing curId rest (h.untrackIncomingIfObject v (curId, k))

/-- One iteration of the `while (toDelete.length)` loop: pop, skip if
visited, mark visited, skip if dead, else run steps 1-3.  The inner
re-read of the record is the source's `obj` reference, whose field map
step 1 may have mutated through self-edges; `processIncoming` never
removes objects, so the `none` fallback is unreachable. -/
def cascadeStep (st : CascadeState) : CascadeState :=
  match st.stack with
  | [] => st
  | cur :: rest =>
    if cur ∈ st.visited then ⟨st.heap, rest, st.visited⟩
    else
      match lookupA st.heap.objects cur with
      | none => ⟨st.heap, rest, cur :: st.visited⟩
      | some _ =>
        let pr := processIncoming (st.heap.incomingOf cur) st.heap []
        let h3 : Heap :=
          match lookupA pr.1.objects cur with
          | some o2 => untrackOutgoing cur o2.fields pr.1
          | none => pr.1
        let h4 : Heap :=
          { h3 with incoming := eraseA h3.incoming cur, objects := eraseA h3.objects cur }
        ⟨h4, pr.2 ++ rest, cur :: st.visited⟩

/-- Fuel-bounded run of the cascade loop. -/
def runCascade : Nat → CascadeState → CascadeState
  | 0, st => st
  | fuel + 1, st =>
    match st.stack with
    | [] => st
    | _ :: _ => runCascade fuel (cascadeStep st)

/-- Weight of a pending object in the termination measure. -/
def Heap.weightOf (h : Heap) (id : Nat) : Nat :=
  1 + (h.incomingOf id).length

/-- Live objects not yet visited. -/
def CascadeState.pending (st : CascadeState) : List Nat :=
  (st.heap.objects.map Prod.fst).filter (fun id => decide (id ∉ st.visited))

/-- Termination measure of the cascade loop: it strictly decreases at
every iteration, so it bounds the number of iterations. -/
def CascadeState.measure (st : CascadeState) : Nat :=
  st.stack.length + ((st.pending).map st.heap.weightOf).sum

/-- Fuel sufficient for `deleteObjectCascade` to drain its work stack. -/
def Heap.cascadeFuel (h : Heap) (id : Nat) : Nat :=
  CascadeState.measure ⟨h, [id], []⟩

/-- Heap.deleteObjectCascade: the central algorithm, run to completion. -/
def Heap.deleteObjectCascade (h : Heap) (id : Nat) : Heap :=
  (runCascade (h.cascadeFuel id) ⟨h, [id], []⟩).heap

/-- Heap.setField: the single mutating entry point.  Dead parents are
silent no-ops; a null write under `isMandatory` cascades instead of
installing the write. -/
def Heap.setField (h : Heap) (parentId : Nat) (name : String) (value : Value)
    (isMandatory : Bool) : Heap :=
  match lookupA h.objects parentId with
  | none => h
  | some parent =>
    let h1 : Heap :=
      match lookupA parent.fields name with
      | some prev => h.untrackIncomingIfObject prev (parentId, name)
      | none => h
    if value = Value.vnull ∧ isMandatory = true then
      h1.deleteObjectCascade parentId
    else
      (h1.setRawField parentId name value).trackIncomingIfObject value (parentId, name)

/-- Interpreter.assignTo, IndexExpr branch: a raw write of the array
slot plus the `length` extension, with no reverse-index maintenance.
`none` models the thrown `Indexing non-array` error. -/
def Heap.indexAssign (h : Heap) (id : Nat) (idx : Nat) (v : Value) : Option Heap :=
  match lookupA h.objects id with
  | none => none
  | some o =>
    if o.typeName = some "__array__" then
      let o1 : HeapObject := { o with fields := setAssoc o.fields (toString idx) v }
      let len : Nat :=
        match lookupA o1.fields "length" with
        | some (Value.vnum n) => n
        | _ => 0
      let o2 : HeapObject :=
        if len ≤ idx then { o1 with fields := setAssoc o1.fields "length" (Value.vnum (idx + 1)) }
        else o1
      some { h with objects := setAssoc h.objects id o2 }
    else none

/-! ### Specification predicates -/

/-- The loop invariant: every visited identifier is dead. -/
def VisitedDead (st : CascadeState) : Prop :=
  ∀ v ∈ st.visited, lookupA st.heap.objects v = none

/-- Reachability through mandatory back-edges, the propagation relation
of the cascade: from a deleted node to a parent holding it through a
field that is mandatory for the parent's type. -/
inductive MandReach (h : Heap) (a : Nat) : Nat → Prop
  | refl : MandReach h a a
  | step (c p : Nat) (f : String) : MandReach h a c → (p, f) ∈ h.incomingOf c →
      h.isFieldMandatory (h.typeNameOf p) f = true → MandReach h a p

/-- Reverse-index soundness: every recorded back-edge `(p, f)` of child
`c` has a live parent whose forward field `f` holds `c`. -/
def Heap.EdgeSound (h : Heap) : Prop :=
  ∀ c p f, (p, f) ∈ h.incomingOf c →
    ∃ o, lookupA h.objects p = some o ∧ lookupA o.fields f = some (Value.vnum c)

/-- Dead objects own no reverse-index entries. -/
def Heap.DeadNoIncoming (h : Heap) : Prop :=
  ∀ c, lookupA h.objects c = none → h.incomingOf c = []

/-- Reverse-index sets are duplicate-free, as JS `Set`s are. -/
def Heap.IncomingNodup (h : Heap) : Prop :=
  ∀ c, (h.incomingOf c).Nodup

/-- Field maps have unique keys, as JS `Map`s do. -/
def Heap.FieldsNodup (h : Heap) : Prop :=
  ∀ id o, lookupA h.objects id = some o → (o.fields.map Prod.fst).Nodup

/-- Well-formedness of a heap state as maintained by the source's `Map`
and `Set` representation together with invariant I1: the conjunction
used as the state hypothesis of the cycle-destruction theorem. -/
def Heap.Consistent (h : Heap) : Prop :=
  h.EdgeSound ∧ h.DeadNoIncoming ∧ h.IncomingNodup ∧ h.FieldsNodup

/-- The node stored at cyclic position `t` of a cycle description list. -/
def cycNode (l : List (Nat × String)) (t : Nat) : Nat :=
  (l.getD (t % l.length) (0, "")).1

/-- The linking field stored at cyclic position `t`. -/
def cycField (l : List (Nat × String)) (t : Nat) : String :=
  (l.getD (t % l.length) (0, "")).2

/-- A mandatory reference cycle in heap `h`: the list is nonempty and
each node is live, links to the next node around the cycle through its
listed field, has that back-edge recorded, and the field is mandatory
for its type. -/
def Heap.CycleOk (h : Heap) (l : List (Nat × String)) : Prop :=
  l ≠ [] ∧ ∀ t, t < l.length →
    (lookupA h.objects (cycNode l t)).isSome = true ∧
    h.getField (cycNode l t) (cycField l t) = some (Value.vnum (cycNode l (t + 1))) ∧
    (cycNode l t, cycField l t) ∈ h.incomingOf (cycNode l (t + 1)) ∧
    h.isFieldMandatory (h.typeNameOf (cycNode l t)) (cycField l t) = true

/-! ### Association-list and set lemmas -/

theorem lookupA_setAssoc_self {α β : Type} [DecidableEq α] (l : List (α × β)) (k : α) (v : β) :
    lookupA (setAssoc l k v) k = some v := by
  induction l with
  | nil => simp [setAssoc, lookupA]
  | cons kv rest ih =>
    by_cases hk : kv.1 = k
    · simp [setAssoc, hk, lookupA]
    · rw [setAssoc, if_neg hk, lookupA, if_neg hk]
      exact ih

theorem lookupA_setAssoc_ne {α β : Type} [DecidableEq α] (l : List (α × β)) (k k' : α) (v : β)
    (hne : k' ≠ k) : lookupA (setAssoc l k v) k' = lookupA l k' := by
  have hne' : k ≠ k' := fun he => hne he.symm
  induction l with
  | nil => simp [setAssoc, lookupA, hne']
  | cons kv rest ih =>
    by_cases hk : kv.1 = k
    · have hkk' : kv.1 ≠ k' := fun he => hne' (hk ▸ he)
      rw [setAssoc, if_pos hk, lookupA, if_neg hne', lookupA, if_neg hkk']
    · rw [setAssoc, if_neg hk]
      by_cases hk' : kv.1 = k'
      · rw [lookupA, if_pos hk', lookupA, if_pos hk']
      · rw [lookupA, if_neg hk', lookupA, if_neg hk']
        exact ih

theorem lookupA_eraseA_self {α β : Type} [DecidableEq α] (l : List (α × β)) (k : α) :
    lookupA (eraseA l k) k = none := by
  induction l with
  | nil => simp [eraseA, lookupA]
  | cons kv rest ih =>
    obtain ⟨a, b⟩ := kv
    by_cases hk : a = k
    · simpa [eraseA, List.filter_cons, hk, lookupA] using ih
    · simpa [eraseA, List.filter_cons, hk, lookupA] using ih

theorem lookupA_eraseA_ne {α β : Type} [DecidableEq α] (l : List (α × β)) (k k' : α)
    (hne : k' ≠ k) : lookupA (eraseA l k) k' = lookupA l k' := by
  have hne' : k ≠ k' := fun he => hne he.symm
  induction l with
  | nil => simp [eraseA, lookupA]
  | cons kv rest ih =>
    obtain ⟨a, b⟩ := kv
    by_cases hk : a = k
    · simpa [eraseA, List.filter_cons, hk, lookupA, hne'] using ih
    · by_cases hk' : a = k'
      · simpa [eraseA, List.filter_cons, hk, hk', lookupA, hne] using ih
      · simpa [eraseA, List.filter_cons, hk, hk', lookupA] using ih

theorem lookupA_eq_none_iff {α β : Type} [DecidableEq α] (l : List (α × β)) (k : α) :
    lookupA l k = none ↔ k ∉ l.map Prod.fst := by
  induction l with
  | nil => simp [lookupA]
  | cons kv rest ih =>
    by_cases hk : kv.1 = k
    · rw [lookupA, if_pos hk]
      simp [hk]
    · have hk' : ¬ k = kv.1 := fun he => hk he.symm
      rw [lookupA, if_neg hk, ih]
      simp [hk']

theorem lookupA_isSome_mem_keys {α β : Type} [DecidableEq α] {l : List (α × β)} {k : α}
    (h : (lookupA l k).isSome = true) : k ∈ l.map Prod.fst := by
  by_contra hmem
  rw [← lookupA_eq_none_iff] at hmem
  simp [hmem] at h

theorem lookupA_some_mem {α β : Type} [DecidableEq α] {l : List (α × β)} {k : α} {v : β}
    (h : lookupA l k = some v) : (k, v) ∈ l := by
  induction l with
  | nil => simp [lookupA] at h
  | cons kv rest ih =>
    by_cases hk : kv.1 = k
    · rw [lookupA, if_pos hk] at h
      cases kv with
      | mk a b => simp_all
    · rw [lookupA, if_neg hk] at h
      exact List.mem_cons_of_mem _ (ih h)

theorem keys_setAssoc_of_mem {α β : Type} [DecidableEq α] (l : List (α × β)) (k : α) (v : β)
    (h : k ∈ l.map Prod.fst) : (setAssoc l k v).map Prod.fst = l.map Prod.fst := by
  induction l with
  | nil => simp at h
  | cons kv rest ih =>
    by_cases hk : kv.1 = k
    · simp [setAssoc, hk]
    · have hmem : k ∈ rest.map Prod.fst := by
        rcases (by simpa using h) with h1 | h1
        · exact absurd h1.symm hk
        · simpa using h1
      simp [setAssoc, hk, ih hmem]

theorem keys_setAssoc_of_not_mem {α β : Type} [DecidableEq α] (l : List (α × β)) (k : α) (v : β)
    (h : k ∉ l.map Prod.fst) : (setAssoc l k v).map Prod.fst = l.map Prod.fst ++ [k] := by
  induction l with
  | nil => simp [setAssoc]
  | cons kv rest ih =>
    have hk1 : kv.1 ≠ k := fun he => h (by simp [he])
    rw [setAssoc, if_neg hk1]
    simp only [List.map_cons, List.cons_append, List.cons.injEq, true_and]
    exact ih (fun hm => h (by simp [hm]))

theorem keys_eraseA {α β : Type} [DecidableEq α] (l : List (α × β)) (k : α) :
    (eraseA l k).map Prod.fst = (l.map Prod.fst).filter (fun x => decide (x ≠ k)) := by
  induction l with
  | nil => simp [eraseA]
  | cons kv rest ih =>
    by_cases hk : kv.1 = k
    · rw [eraseA, List.filter_cons, List.map_cons, List.filter_cons]
      simp only [hk, decide_not, ne_eq, decide_True, Bool.not_true]
      simpa [eraseA] using ih
    · rw [eraseA, List.filter_cons, List.map_cons, List.filter_cons]
      simp only [decide_not, hk, decide_False, Bool.not_false, List.map_cons]
      simpa [eraseA] using ih

theorem mem_addToSet_self {α : Type} [DecidableEq α] (s : List α) (x : α) :
    x ∈ addToSet s x := by
  by_cases hx : x ∈ s <;> simp [addToSet, hx]

theorem mem_addToSet_of_mem {α : Type} [DecidableEq α] {s : List α} {y : α} (x : α)
    (h : y ∈ s) : y ∈ addToSet s x := by
  by_cases hx : x ∈ s <;> simp [addToSet, hx, h]

theorem length_removeFirst_le {α : Type} [DecidableEq α] (s : List α) (x : α) :
    (removeFirst s x).length ≤ s.length := by
  induction s with
  | nil => simp [removeFirst]
  | cons a rest ih =>
    by_cases ha : a = x
    · simp [removeFirst, ha]
    · simp only [removeFirst, if_neg ha, List.length_cons]
      omega

theorem mem_of_mem_removeFirst {α : Type} [DecidableEq α] {s : List α} {x y : α}
    (h : y ∈ removeFirst s x) : y ∈ s := by
  induction s with
  | nil => simpa [removeFirst] using h
  | cons a rest ih =>
    by_cases ha : a = x
    · rw [removeFirst, if_pos ha] at h
      exact List.mem_cons_of_mem _ h
    · rw [removeFirst, if_neg ha] at h
      rcases List.mem_cons.mp h with h1 | h1
      · exact h1 ▸ List.mem_cons_self _ _
      · exact List.mem_cons_of_mem _ (ih h1)

theorem mem_removeFirst_of_ne {α : Type} [DecidableEq α] {s : List α} {x y : α}
    (hne : y ≠ x) (h : y ∈ s) : y ∈ removeFirst s x := by
  induction s with
  | nil => simp at h
  | cons a rest ih =>
    by_cases ha : a = x
    · rw [removeFirst, if_pos ha]
      rcases List.mem_cons.mp h with h1 | h1
      · exact absurd (h1.trans ha) hne
      · exact h1
    · rw [removeFirst, if_neg ha]
      rcases List.mem_cons.mp h with h1 | h1
      · exact h1 ▸ List.mem_cons_self _ _
      · exact List.mem_cons_of_mem _ (ih h1)

theorem nodup_removeFirst {α : Type} [DecidableEq α] {s : List α} (x : α)
    (h : s.Nodup) : (removeFirst s x).Nodup := by
  induction s with
  | nil => simpa [removeFirst] using h
  | cons a rest ih =>
    rcases List.nodup_cons.mp h with ⟨hna, hrest⟩
    by_cases ha : a = x
    · rw [removeFirst, if_pos ha]
      exact hrest
    · rw [removeFirst, if_neg ha]
      exact List.nodup_cons.mpr ⟨fun hmem => hna (mem_of_mem_removeFirst hmem), ih hrest⟩

theorem not_mem_removeFirst_self {α : Type} [DecidableEq α] {s : List α} {x : α}
    (h : s.Nodup) : x ∉ removeFirst s x := by
  induction s with
  | nil => simp [removeFirst]
  | cons a rest ih =>
    rcases List.nodup_cons.mp h with ⟨hna, hrest⟩
    by_cases ha : a = x
    · rw [removeFirst, if_pos ha]
      exact ha ▸ hna
    · rw [removeFirst, if_neg ha]
      intro hmem
      rcases List.mem_cons.mp hmem with h1 | h1
      · exact ha h1.symm
      · exact ih hrest h1

theorem removeFirst_eq_of_not_mem {α : Type} [DecidableEq α] {s : List α} {x : α}
    (h : x ∉ s) : removeFirst s x = s := by
  induction s with
  | nil => simp [removeFirst]
  | cons a rest ih =>
    have ha : a ≠ x := fun he => h (he ▸ List.mem_cons_self _ _)
    rw [removeFirst, if_neg ha, ih (fun hm => h (List.mem_cons_of_mem _ hm))]

theorem nodupkeys_setAssoc {α β : Type} [DecidableEq α] {l : List (α × β)} (k : α) (v : β)
    (h : (l.map Prod.fst).Nodup) : ((setAssoc l k v).map Prod.fst).Nodup := by
  by_cases hk : k ∈ l.map Prod.fst
  · rw [keys_setAssoc_of_mem l k v hk]
    exact h
  · rw [keys_setAssoc_of_not_mem l k v hk]
    rw [List.nodup_append]
    refine ⟨h, List.nodup_singleton k, ?_⟩
    intro a ha hb
    rcases List.mem_singleton.mp hb with rfl
    exact hk ha

theorem lookupA_of_nodupkeys_mem {α β : Type} [DecidableEq α] {l : List (α × β)} {k : α} {v : β}
    (hnd : (l.map Prod.fst).Nodup) (h : (k, v) ∈ l) : lookupA l k = some v := by
  induction l with
  | nil => simp at h
  | cons kv rest ih =>
    rw [List.map_cons] at hnd
    rcases List.nodup_cons.mp hnd with ⟨hna, hrest⟩
    rcases List.mem_cons.mp h with h1 | h1
    · rw [← h1, lookupA, if_pos rfl]
    · have hk : kv.1 ≠ k := by
        intro he
        apply hna
        rw [he]
        exact List.mem_map_of_mem Prod.fst h1
      rw [lookupA, if_neg hk]
      exact ih hrest h1

/-! ### Characterization of the single-edge heap mutators -/

theorem untrack_objects (h : Heap) (v : Value) (pk : Nat × String) :
    (h.untrackIncomingIfObject v pk).objects = h.objects := by
  cases v with
  | vnum n =>
    rw [Heap.untrackIncomingIfObject]
    by_cases hl : (lookupA h.objects n).isSome = true
    · rw [if_pos hl]
      cases lookupA h.incoming n with
      | none => rfl
      | some s =>
        by_cases hre : removeFirst s pk = []
        · simp [hre]
        · simp [hre]
    · rw [if_neg hl]
  | vnull => rfl
  | vbool b => rfl
  | vstr s => rfl

theorem untrack_types (h : Heap) (v : Value) (pk : Nat × String) :
    (h.untrackIncomingIfObject v pk).types = h.types := by
  cases v with
  | vnum n =>
    rw [Heap.untrackIncomingIfObject]
    by_cases hl : (lookupA h.objects n).isSome = true
    · rw [if_pos hl]
      cases lookupA h.incoming n with
      | none => rfl
      | some s =>
        by_cases hre : removeFirst s pk = []
        · simp [hre]
        · simp [hre]
    · rw [if_neg hl]
  | vnull => rfl
  | vbool b => rfl
  | vstr s => rfl

theorem untrack_nextId (h : Heap) (v : Value) (pk : Nat × String) :
    (h.untrackIncomingIfObject v pk).nextId = h.nextId := by
  cases v with
  | vnum n =>
    rw [Heap.untrackIncomingIfObject]
    by_cases hl : (lookupA h.objects n).isSome = true
    · rw [if_pos hl]
      cases lookupA h.incoming n with
      | none => rfl
      | some s =>
        by_cases hre : removeFirst s pk = []
        · simp [hre]
        · simp [hre]
    · rw [if_neg hl]
  | vnull => rfl
  | vbool b => rfl
  | vstr s => rfl

theorem untrack_incomingOf (h : Heap) (v : Value) (pk : Nat × String) (x : Nat) :
    (h.untrackIncomingIfObject v pk).incomingOf x =
      if v = Value.vnum x ∧ (lookupA h.objects x).isSome = true
      then removeFirst (h.incomingOf x) pk else h.incomingOf x := by
  cases v with
  | vnum n =>
    rw [Heap.untrackIncomingIfObject]
    by_cases hl : (lookupA h.objects n).isSome = true
    · rw [if_pos hl]
      by_cases hx : n = x
      · subst hx
        rw [if_pos ⟨rfl, hl⟩]
        cases hs : lookupA h.incoming n with
        | none =>
          simp only [Heap.incomingOf, hs]
          simp [removeFirst]
        | some s =>
          have hine : h.incomingOf n = s := by rw [Heap.incomingOf, hs]; rfl
          by_cases hre : removeFirst s pk = []
          · simp only [hre, if_pos]
            rw [Heap.incomingOf]
            simp only [lookupA_eraseA_self]
            rw [hine, hre]
            rfl
          · simp only [hre, if_neg, ite_false]
            rw [Heap.incomingOf]
            simp only [lookupA_setAssoc_self]
            rw [hine]
            rfl
      · have hcond : ¬ (Value.vnum n = Value.vnum x ∧ (lookupA h.objects x).isSome = true) := by
          intro hc
          exact hx (Value.vnum.inj hc.1)
        rw [if_neg hcond]
        cases hs : lookupA h.incoming n with
        | none => rfl
        | some s =>
          by_cases hre : removeFirst s pk = []
          · simp only [hre, if_pos]
            rw [Heap.incomingOf, Heap.incomingOf]
            rw [lookupA_eraseA_ne h.incoming n x (fun he => hx he.symm)]
          · simp only [hre, if_neg, ite_false]
            rw [Heap.incomingOf, Heap.incomingOf]
            rw [lookupA_setAssoc_ne h.incoming n x _ (fun he => hx he.symm)]
    · rw [if_neg hl]
      have hcond : ¬ (Value.vnum n = Value.vnum x ∧ (lookupA h.objects x).isSome = true) := by
        intro hc
        exact hl ((Value.vnum.inj hc.1) ▸ hc.2)
      rw [if_neg hcond]
  | vnull =>
    have he : h.untrackIncomingIfObject Value.vnull pk = h := rfl
    rw [he]
    simp
  | vbool b =>
    have he : h.untrackIncomingIfObject (Value.vbool b) pk = h := rfl
    rw [he]
    simp
  | vstr s =>
    have he : h.untrackIncomingIfObject (Value.vstr s) pk = h := rfl
    rw [he]
    simp

theorem track_objects (h : Heap) (v : Value) (pk : Nat × String) :
    (h.trackIncomingIfObject v pk).objects = h.objects := by
  cases v with
  | vnum n =>
    rw [Heap.trackIncomingIfObject]
    by_cases hl : (lookupA h.objects n).isSome = true
    · rw [if_pos hl]
    · rw [if_neg hl]
  | vnull => rfl
  | vbool b => rfl
  | vstr s => rfl

theorem track_types (h : Heap) (v : Value) (pk : Nat × String) :
    (h.trackIncomingIfObject v pk).types = h.types := by
  cases v with
  | vnum n =>
    rw [Heap.trackIncomingIfObject]
    by_cases hl : (lookupA h.objects n).isSome = true
    · rw [if_pos hl]
    · rw [if_neg hl]
  | vnull => rfl
  | vbool b => rfl
  | vstr s => rfl

theorem track_nextId (h : Heap) (v : Value) (pk : Nat × String) :
    (h.trackIncomingIfObject v pk).nextId = h.nextId := by
  cases v with
  | vnum n =>
    rw [Heap.trackIncomingIfObject]
    by_cases hl : (lookupA h.objects n).isSome = true
    · rw [if_pos hl]
    · rw [if_neg hl]
  | vnull => rfl
  | vbool b => rfl
  | vstr s => rfl

theorem track_incomingOf (h : Heap) (v : Value) (pk : Nat × String) (x : Nat) :
    (h.trackIncomingIfObject v pk).incomingOf x =
      if v = Value.vnum x ∧ (lookupA h.objects x).isSome = true
      then addToSet (h.incomingOf x) pk else h.incomingOf x := by
  cases v with
  | vnum n =>
    rw [Heap.trackIncomingIfObject]
    by_cases hl : (lookupA h.objects n).isSome = true
    · rw [if_pos hl]
      by_cases hx : n = x
      · subst hx
        rw [if_pos ⟨rfl, hl⟩]
        rw [Heap.incomingOf]
        simp only [lookupA_setAssoc_self]
        rfl
      · have hcond : ¬ (Value.vnum n = Value.vnum x ∧ (lookupA h.objects x).isSome = true) := by
          intro hc
          exact hx (Value.vnum.inj hc.1)
        rw [if_neg hcond]
        rw [Heap.incomingOf, Heap.incomingOf]
        rw [lookupA_setAssoc_ne h.incoming n x _ (fun he => hx he.symm)]
        rfl
    · rw [if_neg hl]
      have hcond : ¬ (Value.vnum n = Value.vnum x ∧ (lookupA h.objects x).isSome = true) := by
        intro hc
        exact hl ((Value.vnum.inj hc.1) ▸ hc.2)
      rw [if_neg hcond]
  | vnull =>
    have he : h.trackIncomingIfObject Value.vnull pk = h := rfl
    rw [he]
    simp
  | vbool b =>
    have he : h.trackIncomingIfObject (Value.vbool b) pk = h := rfl
    rw [he]
    simp
  | vstr s =>
    have he : h.trackIncomingIfObject (Value.vstr s) pk = h := rfl
    rw [he]
    simp

theorem setRawField_of_dead (h : Heap) (id : Nat) (k : String) (v : Value)
    (hd : lookupA h.objects id = none) : h.setRawField id k v = h := by
  rw [Heap.setRawField, hd]

theorem setRawField_of_live (h : Heap) (id : Nat) (k : String) (v : Value) (o : HeapObject)
    (ho : lookupA h.objects id = some o) :
    h.setRawField id k v =
      { h with objects := setAssoc h.objects id { o with fields := setAssoc o.fields k v } } := by
  rw [Heap.setRawField, ho]

theorem setRawField_incoming (h : Heap) (id : Nat) (k : String) (v : Value) :
    (h.setRawField id k v).incoming = h.incoming := by
  rw [Heap.setRawField]
  cases lookupA h.objects id with
  | none => rfl
  | some o => rfl

theorem setRawField_types (h : Heap) (id : Nat) (k : String) (v : Value) :
    (h.setRawField id k v).types = h.types := by
  rw [Heap.setRawField]
  cases lookupA h.objects id with
  | none => rfl
  | some o => rfl

theorem setRawField_nextId (h : Heap) (id : Nat) (k : String) (v : Value) :
    (h.setRawField id k v).nextId = h.nextId := by
  rw [Heap.setRawField]
  cases lookupA h.objects id with
  | none => rfl
  | some o => rfl

theorem setRawField_keys (h : Heap) (id : Nat) (k : String) (v : Value) :
    (h.setRawField id k v).objects.map Prod.fst = h.objects.map Prod.fst := by
  rw [Heap.setRawField]
  cases ho : lookupA h.objects id with
  | none => rfl
  | some o =>
    exact keys_setAssoc_of_mem _ _ _ (lookupA_isSome_mem_keys (by simp [ho]))

theorem setRawField_lookup_ne (h : Heap) (id : Nat) (k : String) (v : Value) (x : Nat)
    (hx : x ≠ id) : lookupA (h.setRawField id k v).objects x = lookupA h.objects x := by
  rw [Heap.setRawField]
  cases lookupA h.objects id with
  | none => rfl
  | some o => exact lookupA_setAssoc_ne _ _ _ _ hx

/-! ### Structural lemmas for step 1 of the cascade -/

theorem isSome_lookupA_eq_of_keys {α β : Type} [DecidableEq α] {l l' : List (α × β)}
    (hk : l.map Prod.fst = l'.map Prod.fst) (x : α) :
    (lookupA l x).isSome = (lookupA l' x).isSome := by
  cases he : lookupA l' x with
  | none =>
    have : lookupA l x = none := by
      rw [lookupA_eq_none_iff, hk, ← lookupA_eq_none_iff]
      exact he
    simp [this]
  | some v =>
    cases he2 : lookupA l x with
    | some w => rfl
    | none =>
      rw [lookupA_eq_none_iff, hk, ← lookupA_eq_none_iff] at he2
      rw [he2] at he
      cases he

theorem stepHeap_types (h : Heap) (pid : Nat) (f : String) (parent : HeapObject) :
    (stepHeap h pid f parent).types = h.types := by
  rw [stepHeap]
  cases lookupA parent.fields f with
  | none => rfl
  | some pv => rw [untrack_types]

theorem stepHeap_nextId (h : Heap) (pid : Nat) (f : String) (parent : HeapObject) :
    (stepHeap h pid f parent).nextId = h.nextId := by
  rw [stepHeap]
  cases lookupA parent.fields f with
  | none => rfl
  | some pv => rw [untrack_nextId]

theorem stepHeap_objects (h : Heap) (pid : Nat) (f : String) (parent : HeapObject) :
    (stepHeap h pid f parent).objects =
      setAssoc h.objects pid { parent with fields := setAssoc parent.fields f Value.vnull } := by
  rw [stepHeap]
  cases lookupA parent.fields f with
  | none => rfl
  | some pv => rw [untrack_objects]

theorem stepHeap_keys (h : Heap) (pid : Nat) (f : String) (parent : HeapObject)
    (hp : lookupA h.objects pid = some parent) :
    (stepHeap h pid f parent).objects.map Prod.fst = h.objects.map Prod.fst := by
  rw [stepHeap_objects]
  exact keys_setAssoc_of_mem _ _ _ (lookupA_isSome_mem_keys (by simp [hp]))

theorem stepHeap_lookup_self (h : Heap) (pid : Nat) (f : String) (parent : HeapObject) :
    lookupA (stepHeap h pid f parent).objects pid =
      some { parent with fields := setAssoc parent.fields f Value.vnull } := by
  rw [stepHeap_objects, lookupA_setAssoc_self]

theorem stepHeap_lookup_ne (h : Heap) (pid : Nat) (f : String) (parent : HeapObject)
    (x : Nat) (hx : x ≠ pid) :
    lookupA (stepHeap h pid f parent).objects x = lookupA h.objects x := by
  rw [stepHeap_objects]
  exact lookupA_setAssoc_ne _ _ _ _ hx

theorem stepHeap_isLive (h : Heap) (pid : Nat) (f : String) (parent : HeapObject)
    (hp : lookupA h.objects pid = some parent) (x : Nat) :
    (stepHeap h pid f parent).isLive x = h.isLive x := by
  rw [Heap.isLive, Heap.isLive]
  exact isSome_lookupA_eq_of_keys (stepHeap_keys h pid f parent hp) x

theorem stepHeap_typeNameOf (h : Heap) (pid : Nat) (f : String) (parent : HeapObject)
    (hp : lookupA h.objects pid = some parent) (x : Nat) :
    (stepHeap h pid f parent).typeNameOf x = h.typeNameOf x := by
  by_cases hx : x = pid
  · subst hx
    rw [Heap.typeNameOf, Heap.typeNameOf, stepHeap_lookup_self, hp]
  · rw [Heap.typeNameOf, Heap.typeNameOf, stepHeap_lookup_ne h pid f parent x hx]

theorem isFieldMandatory_congr {h h' : Heap} (ht : h'.types = h.types)
    (tn : Option String) (g : String) :
    h'.isFieldMandatory tn g = h.isFieldMandatory tn g := by
  rw [Heap.isFieldMandatory.eq_def, Heap.isFieldMandatory.eq_def, ht]

theorem stepHeap_isFieldMandatory (h : Heap) (pid : Nat) (f : String) (parent : HeapObject)
    (tn : Option String) (g : String) :
    (stepHeap h pid f parent).isFieldMandatory tn g = h.isFieldMandatory tn g :=
  isFieldMandatory_congr (stepHeap_types h pid f parent) tn g

theorem stepHeap_incomingOf (h : Heap) (pid : Nat) (f : String) (parent : HeapObject)
    (hp : lookupA h.objects pid = some parent) (x : Nat) :
    (stepHeap h pid f parent).incomingOf x =
      match lookupA parent.fields f with
      | some pv =>
        if pv = Value.vnum x ∧ (lookupA h.objects x).isSome = true
        then removeFirst (h.incomingOf x) (pid, f) else h.incomingOf x
      | none => h.incomingOf x := by
  rw [stepHeap]
  cases hpf : lookupA parent.fields f with
  | none => rfl
  | some pv =>
    set P : HeapObject := { parent with fields := setAssoc parent.fields f Value.vnull } with hP
    have hkeys : (setAssoc h.objects pid P).map Prod.fst = h.objects.map Prod.fst :=
      keys_setAssoc_of_mem _ _ _ (lookupA_isSome_mem_keys (by simp [hp]))
    have hlive : (lookupA (setAssoc h.objects pid P) x).isSome = (lookupA h.objects x).isSome :=
      isSome_lookupA_eq_of_keys hkeys x
    rw [untrack_incomingOf]
    simp only [Heap.incomingOf]
    rw [hlive]

/-! ### Induction lemmas for `processIncoming` -/

theorem processIncoming_nil (h : Heap) (acc : List Nat) :
    processIncoming [] h acc = (h, acc) := rfl

theorem processIncoming_cons_dead (pid : Nat) (f : String) (rest : List (Nat × String))
    (h : Heap) (acc : List Nat) (hp : lookupA h.objects pid = none) :
    processIncoming ((pid, f) :: rest) h acc = processIncoming rest h acc := by
  rw [processIncoming, hp]

theorem processIncoming_cons_live (pid : Nat) (f : String) (rest : List (Nat × String))
    (h : Heap) (acc : List Nat) (parent : HeapObject)
    (hp : lookupA h.objects pid = some parent) :
    processIncoming ((pid, f) :: rest) h acc =
      processIncoming rest (stepHeap h pid f parent)
        (if (stepHeap h pid f parent).isFieldMandatory parent.typeName f
         then pid :: acc else acc) := by
  rw [processIncoming, hp]

theorem processIncoming_types (L : List (Nat × String)) (h : Heap) (acc : List Nat) :
    (processIncoming L h acc).1.types = h.types := by
  induction L generalizing h acc with
  | nil => rfl
  | cons e rest ih =>
    obtain ⟨pid, g⟩ := e
    cases hp : lookupA h.objects pid with
    | none =>
      rw [processIncoming_cons_dead pid g rest h acc hp]
      exact ih h acc
    | some parent =>
      rw [processIncoming_cons_live pid g rest h acc parent hp]
      rw [ih]
      exact stepHeap_types h pid g parent

theorem processIncoming_nextId (L : List (Nat × String)) (h : Heap) (acc : List Nat) :
    (processIncoming L h acc).1.nextId = h.nextId := by
  induction L generalizing h acc with
  | nil => rfl
  | cons e rest ih =>
    obtain ⟨pid, g⟩ := e
    cases hp : lookupA h.objects pid with
    | none =>
      rw [processIncoming_cons_dead pid g rest h acc hp]
      exact ih h acc
    | some parent =>
      rw [processIncoming_cons_live pid g rest h acc parent hp]
      rw [ih]
      exact stepHeap_nextId h pid g parent

theorem processIncoming_keys (L : List (Nat × String)) (h : Heap) (acc : List Nat) :
    (processIncoming L h acc).1.objects.map Prod.fst = h.objects.map Prod.fst := by
  induction L generalizing h acc with
  | nil => rfl
  | cons e rest ih =>
    obtain ⟨pid, g⟩ := e
    cases hp : lookupA h.objects pid with
    | none =>
      rw [processIncoming_cons_dead pid g rest h acc hp]
      exact ih h acc
    | some parent =>
      rw [processIncoming_cons_live pid g rest h acc parent hp]
      rw [ih]
      exact stepHeap_keys h pid g parent hp

theorem processIncoming_isLive (L : List (Nat × String)) (h : Heap) (acc : List Nat) (x : Nat) :
    (processIncoming L h acc).1.isLive x = h.isLive x := by
  rw [Heap.isLive, Heap.isLive]
  exact isSome_lookupA_eq_of_keys (processIncoming_keys L h acc) x

theorem processIncoming_typeNameOf (L : List (Nat × String)) (h : Heap) (acc : List Nat)
    (x : Nat) : (processIncoming L h acc).1.typeNameOf x = h.typeNameOf x := by
  induction L generalizing h acc with
  | nil => rfl
  | cons e rest ih =>
    obtain ⟨pid, g⟩ := e
    cases hp : lookupA h.objects pid with
    | none =>
      rw [processIncoming_cons_dead pid g rest h acc hp]
      exact ih h acc
    | some parent =>
      rw [processIncoming_cons_live pid g rest h acc parent hp]
      rw [ih]
      exact stepHeap_typeNameOf h pid g parent hp x

theorem processIncoming_isFieldMandatory (L : List (Nat × String)) (h : Heap) (acc : List Nat)
    (tn : Option String) (g : String) :
    (processIncoming L h acc).1.isFieldMandatory tn g = h.isFieldMandatory tn g :=
  isFieldMandatory_congr (processIncoming_types L h acc) tn g

theorem processIncoming_acc_mono (L : List (Nat × String)) (h : Heap) (acc : List Nat)
    (x : Nat) (hx : x ∈ acc) : x ∈ (processIncoming L h acc).2 := by
  induction L generalizing h acc with
  | nil => exact hx
  | cons e rest ih =>
    obtain ⟨pid, g⟩ := e
    cases hp : lookupA h.objects pid with
    | none =>
      rw [processIncoming_cons_dead pid g rest h acc hp]
      exact ih h acc hx
    | some parent =>
      rw [processIncoming_cons_live pid g rest h acc parent hp]
      apply ih
      by_cases hm : (stepHeap h pid g parent).isFieldMandatory parent.typeName g = true
      · rw [if_pos hm]
        exact List.mem_cons_of_mem _ hx
      · rw [if_neg hm]
        exact hx

theorem processIncoming_pushed_length (L : List (Nat × String)) (h : Heap) (acc : List Nat) :
    (processIncoming L h acc).2.length ≤ L.length + acc.length := by
  induction L generalizing h acc with
  | nil => simp [processIncoming_nil]
  | cons e rest ih =>
    obtain ⟨pid, g⟩ := e
    cases hp : lookupA h.objects pid with
    | none =>
      rw [processIncoming_cons_dead pid g rest h acc hp]
      have := ih h acc
      simp only [List.length_cons]
      omega
    | some parent =>
      rw [processIncoming_cons_live pid g rest h acc parent hp]
      by_cases hm : (stepHeap h pid g parent).isFieldMandatory parent.typeName g = true
      · rw [if_pos hm]
        have := ih (stepHeap h pid g parent) (pid :: acc)
        simp only [List.length_cons] at this ⊢
        omega
      · rw [if_neg hm]
        have := ih (stepHeap h pid g parent) acc
        simp only [List.length_cons]
        omega

theorem processIncoming_incoming_len (L : List (Nat × String)) (h : Heap) (acc : List Nat)
    (x : Nat) : ((processIncoming L h acc).1.incomingOf x).length ≤ (h.incomingOf x).length := by
  induction L generalizing h acc with
  | nil => exact Nat.le_refl _
  | cons e rest ih =>
    obtain ⟨pid, g⟩ := e
    cases hp : lookupA h.objects pid with
    | none =>
      rw [processIncoming_cons_dead pid g rest h acc hp]
      exact ih h acc
    | some parent =>
      rw [processIncoming_cons_live pid g rest h acc parent hp]
      refine Nat.le_trans (ih (stepHeap h pid g parent) _) ?_
      rw [stepHeap_incomingOf h pid g parent hp x]
      cases lookupA parent.fields g with
      | none => exact Nat.le_refl _
      | some pv =>
        dsimp only
        by_cases hc : pv = Value.vnum x ∧ (lookupA h.objects x).isSome = true
        · rw [if_pos hc]
          exact length_removeFirst_le _ _
        · rw [if_neg hc]

theorem processIncoming_mem_incoming (L : List (Nat × String)) (h : Heap) (acc : List Nat)
    (c : Nat) (e : Nat × String) (he : e ∈ (processIncoming L h acc).1.incomingOf c) :
    e ∈ h.incomingOf c := by
  induction L generalizing h acc with
  | nil => exact he
  | cons ed rest ih =>
    obtain ⟨pid, g⟩ := ed
    cases hp : lookupA h.objects pid with
    | none =>
      rw [processIncoming_cons_dead pid g rest h acc hp] at he
      exact ih h acc he
    | some parent =>
      rw [processIncoming_cons_live pid g rest h acc parent hp] at he
      have hstep := ih (stepHeap h pid g parent) _ he
      rw [stepHeap_incomingOf h pid g parent hp c] at hstep
      revert hstep
      cases lookupA parent.fields g with
      | none => exact id
      | some pv =>
        dsimp only
        by_cases hc : pv = Value.vnum c ∧ (lookupA h.objects c).isSome = true
        · rw [if_pos hc]
          exact mem_of_mem_removeFirst
        · rw [if_neg hc]
          exact id

theorem processIncoming_mem_incoming_of_not_mem (L : List (Nat × String)) (h : Heap)
    (acc : List Nat) (c : Nat) (e : Nat × String) (heL : e ∉ L) (he : e ∈ h.incomingOf c) :
    e ∈ (processIncoming L h acc).1.incomingOf c := by
  induction L generalizing h acc with
  | nil => exact he
  | cons ed rest ih =>
    obtain ⟨pid, g⟩ := ed
    have heRest : e ∉ rest := fun hm => heL (List.mem_cons_of_mem _ hm)
    have heHead : e ≠ (pid, g) := fun hm => heL (hm ▸ List.mem_cons_self _ _)
    cases hp : lookupA h.objects pid with
    | none =>
      rw [processIncoming_cons_dead pid g rest h acc hp]
      exact ih h acc heRest he
    | some parent =>
      rw [processIncoming_cons_live pid g rest h acc parent hp]
      apply ih _ _ heRest
      rw [stepHeap_incomingOf h pid g parent hp c]
      cases lookupA parent.fields g with
      | none => exact he
      | some pv =>
        dsimp only
        by_cases hc : pv = Value.vnum c ∧ (lookupA h.objects c).isSome = true
        · rw [if_pos hc]
          exact mem_removeFirst_of_ne heHead he
        · rw [if_neg hc]
          exact he

theorem typeNameOf_of_lookup {h : Heap} {pid : Nat} {parent : HeapObject}
    (hp : lookupA h.objects pid = some parent) : h.typeNameOf pid = parent.typeName := by
  rw [Heap.typeNameOf, hp]

theorem isLive_of_lookup {h : Heap} {pid : Nat} {parent : HeapObject}
    (hp : lookupA h.objects pid = some parent) : h.isLive pid = true := by
  rw [Heap.isLive, hp]
  rfl

theorem lookup_of_isLive {h : Heap} {pid : Nat} (hl : h.isLive pid = true) :
    ∃ o, lookupA h.objects pid = some o := by
  rw [Heap.isLive] at hl
  exact Option.isSome_iff_exists.mp hl

theorem processIncoming_pushes (L : List (Nat × String)) (h : Heap) (acc : List Nat)
    (p : Nat) (f : String) (hmem : (p, f) ∈ L) (hlive : h.isLive p = true)
    (hmand : h.isFieldMandatory (h.typeNameOf p) f = true) :
    p ∈ (processIncoming L h acc).2 := by
  induction L generalizing h acc with
  | nil => simp at hmem
  | cons e rest ih =>
    obtain ⟨pid, g⟩ := e
    cases hp : lookupA h.objects pid with
    | none =>
      rw [processIncoming_cons_dead pid g rest h acc hp]
      rcases List.mem_cons.mp hmem with h1 | h1
      · obtain ⟨rfl, rfl⟩ := Prod.mk.injEq .. ▸ h1
        rw [Heap.isLive, hp] at hlive
        cases hlive
      · exact ih h acc h1 hlive hmand
    | some parent =>
      rw [processIncoming_cons_live pid g rest h acc parent hp]
      rcases List.mem_cons.mp hmem with h1 | h1
      · have hpp : p = pid := congrArg Prod.fst h1
        have hff : f = g := congrArg Prod.snd h1
        subst hpp
        subst hff
        have hmand2 : (stepHeap h p f parent).isFieldMandatory parent.typeName f = true := by
          rw [stepHeap_isFieldMandatory, ← typeNameOf_of_lookup hp]
          exact hmand
        rw [if_pos hmand2]
        exact processIncoming_acc_mono rest _ _ p (List.mem_cons_self _ _)
      · refine ih _ _ h1 ?_ ?_
        · rw [stepHeap_isLive h pid g parent hp]
          exact hlive
        · rw [isFieldMandatory_congr (stepHeap_types h pid g parent),
            stepHeap_typeNameOf h pid g parent hp]
          exact hmand

theorem processIncoming_pushed_char (L : List (Nat × String)) (h : Heap) (acc : List Nat)
    (x : Nat) (hx : x ∈ (processIncoming L h acc).2) :
    x ∈ acc ∨ ∃ f, (x, f) ∈ L ∧ h.isLive x = true ∧
      h.isFieldMandatory (h.typeNameOf x) f = true := by
  induction L generalizing h acc with
  | nil => exact Or.inl hx
  | cons e rest ih =>
    obtain ⟨pid, g⟩ := e
    cases hp : lookupA h.objects pid with
    | none =>
      rw [processIncoming_cons_dead pid g rest h acc hp] at hx
      rcases ih h acc hx with h1 | ⟨f, hf1, hf2, hf3⟩
      · exact Or.inl h1
      · exact Or.inr ⟨f, List.mem_cons_of_mem _ hf1, hf2, hf3⟩
    | some parent =>
      rw [processIncoming_cons_live pid g rest h acc parent hp] at hx
      rcases ih _ _ hx with h1 | ⟨f, hf1, hf2, hf3⟩
      · by_cases hm : (stepHeap h pid g parent).isFieldMandatory parent.typeName g = true
        · rw [if_pos hm] at h1
          rcases List.mem_cons.mp h1 with h2 | h2
          · subst h2
            refine Or.inr ⟨g, List.mem_cons_self _ _, isLive_of_lookup hp, ?_⟩
            rw [stepHeap_isFieldMandatory] at hm
            rw [typeNameOf_of_lookup hp]
            exact hm
          · exact Or.inl h2
        · rw [if_neg hm] at h1
          exact Or.inl h1
      · refine Or.inr ⟨f, List.mem_cons_of_mem _ hf1, ?_, ?_⟩
        · rw [← stepHeap_isLive h pid g parent hp]
          exact hf2
        · rw [← isFieldMandatory_congr (stepHeap_types h pid g parent),
            ← stepHeap_typeNameOf h pid g parent hp]
          exact hf3

theorem processIncoming_preserves_null (L : List (Nat × String)) (h : Heap) (acc : List Nat)
    (p : Nat) (f : String) (o : HeapObject) (hp : lookupA h.objects p = some o)
    (hnull : lookupA o.fields f = some Value.vnull) :
    ∃ o', lookupA (processIncoming L h acc).1.objects p = some o' ∧
      lookupA o'.fields f = some Value.vnull := by
  induction L generalizing h acc o with
  | nil => exact ⟨o, hp, hnull⟩
  | cons e rest ih =>
    obtain ⟨pid, g⟩ := e
    cases hq : lookupA h.objects pid with
    | none =>
      rw [processIncoming_cons_dead pid g rest h acc hq]
      exact ih h acc o hp hnull
    | some parent =>
      rw [processIncoming_cons_live pid g rest h acc parent hq]
      by_cases hpp : p = pid
      · subst hpp
        have hop : parent = o := by
          rw [hp] at hq
          exact (Option.some.inj hq).symm
        subst hop
        refine ih _ _ _ (stepHeap_lookup_self h p g parent) ?_
        by_cases hgf : g = f
        · subst hgf
          exact lookupA_setAssoc_self _ _ _
        · rw [lookupA_setAssoc_ne _ _ _ _ (fun he => hgf he.symm)]
          exact hnull
      · refine ih _ _ o ?_ hnull
        rw [stepHeap_lookup_ne h pid g parent p hpp]
        exact hp

theorem processIncoming_nulls (L : List (Nat × String)) (h : Heap) (acc : List Nat)
    (p : Nat) (f : String) (hmem : (p, f) ∈ L) (hlive : h.isLive p = true) :
    ∃ o', lookupA (processIncoming L h acc).1.objects p = some o' ∧
      lookupA o'.fields f = some Value.vnull := by
  induction L generalizing h acc with
  | nil => simp at hmem
  | cons e rest ih =>
    obtain ⟨pid, g⟩ := e
    cases hq : lookupA h.objects pid with
    | none =>
      rw [processIncoming_cons_dead pid g rest h acc hq]
      rcases List.mem_cons.mp hmem with h1 | h1
      · have hpp : p = pid := congrArg Prod.fst h1
        subst hpp
        rw [Heap.isLive, hq] at hlive
        cases hlive
      · exact ih h acc h1 hlive
    | some parent =>
      rw [processIncoming_cons_live pid g rest h acc parent hq]
      rcases List.mem_cons.mp hmem with h1 | h1
      · have hpp : p = pid := congrArg Prod.fst h1
        have hff : f = g := congrArg Prod.snd h1
        subst hpp
        subst hff
        exact processIncoming_preserves_null rest _ _ p f _
          (stepHeap_lookup_self h p f parent) (lookupA_setAssoc_self _ _ _)
      · refine ih _ _ h1 ?_
        rw [stepHeap_isLive h pid g parent hq]
        exact hlive

/-! ### Structural lemmas for step 2 and for one cascade iteration -/

theorem untrackOutgoing_objects (cur : Nat) (L : List (String × Value)) (h : Heap) :
    (untrackOutgoing cur L h).objects = h.objects := by
  induction L generalizing h with
  | nil => rfl
  | cons kv rest ih =>
    obtain ⟨k, v⟩ := kv
    rw [untrackOutgoing, ih, untrack_objects]

theorem untrackOutgoing_types (cur : Nat) (L : List (String × Value)) (h : Heap) :
    (untrackOutgoing cur L h).types = h.types := by
  induction L generalizing h with
  | nil => rfl
  | cons kv rest ih =>
    obtain ⟨k, v⟩ := kv
    rw [untrackOutgoing, ih, untrack_types]

theorem untrackOutgoing_nextId (cur : Nat) (L : List (String × Value)) (h : Heap) :
    (untrackOutgoing cur L h).nextId = h.nextId := by
  induction L generalizing h with
  | nil => rfl
  | cons kv rest ih =>
    obtain ⟨k, v⟩ := kv
    rw [untrackOutgoing, ih, untrack_nextId]

theorem untrackOutgoing_incoming_len (cur : Nat) (L : List (String × Value)) (h : Heap)
    (x : Nat) : ((untrackOutgoing cur L h).incomingOf x).length ≤ (h.incomingOf x).length := by
  induction L generalizing h with
  | nil => exact Nat.le_refl _
  | cons kv rest ih =>
    obtain ⟨k, v⟩ := kv
    rw [untrackOutgoing]
    refine Nat.le_trans (ih _) ?_
    rw [untrack_incomingOf]
    by_cases hc : v = Value.vnum x ∧ (lookupA h.objects x).isSome = true
    · rw [if_pos hc]
      exact length_removeFirst_le _ _
    · rw [if_neg hc]

theorem untrackOutgoing_mem_incoming (cur : Nat) (L : List (String × Value)) (h : Heap)
    (c : Nat) (e : Nat × String) (he : e ∈ (untrackOutgoing cur L h).incomingOf c) :
    e ∈ h.incomingOf c := by
  induction L generalizing h with
  | nil => exact he
  | cons kv rest ih =>
    obtain ⟨k, v⟩ := kv
    rw [untrackOutgoing] at he
    have := ih _ he
    rw [untrack_incomingOf] at this
    revert this
    by_cases hc : v = Value.vnum c ∧ (lookupA h.objects c).isSome = true
    · rw [if_pos hc]
      exact mem_of_mem_removeFirst
    · rw [if_neg hc]
      exact id

theorem untrackOutgoing_mem_incoming_of_parent_ne (cur : Nat) (L : List (String × Value))
    (h : Heap) (c : Nat) (e : Nat × String) (hpar : e.1 ≠ cur) (he : e ∈ h.incomingOf c) :
    e ∈ (untrackOutgoing cur L h).incomingOf c := by
  induction L generalizing h with
  | nil => exact he
  | cons kv rest ih =>
    obtain ⟨k, v⟩ := kv
    rw [untrackOutgoing]
    apply ih
    rw [untrack_incomingOf]
    by_cases hc : v = Value.vnum c ∧ (lookupA h.objects c).isSome = true
    · rw [if_pos hc]
      exact mem_removeFirst_of_ne (fun hek => hpar (congrArg Prod.fst hek)) he
    · rw [if_neg hc]
      exact he

theorem cascadeStep_empty (st : CascadeState) (hstack : st.stack = []) :
    cascadeStep st = st := by
  obtain ⟨hh, sstack, vis⟩ := st
  dsimp only at hstack
  subst hstack
  rfl

theorem cascadeStep_visited (st : CascadeState) (cur : Nat) (rest : List Nat)
    (hstack : st.stack = cur :: rest) (hv : cur ∈ st.visited) :
    cascadeStep st = ⟨st.heap, rest, st.visited⟩ := by
  obtain ⟨hh, sstack, vis⟩ := st
  dsimp only at hstack hv ⊢
  subst hstack
  rw [cascadeStep]
  dsimp only
  rw [if_pos hv]

theorem cascadeStep_dead (st : CascadeState) (cur : Nat) (rest : List Nat)
    (hstack : st.stack = cur :: rest) (hv : cur ∉ st.visited)
    (hd : lookupA st.heap.objects cur = none) :
    cascadeStep st = ⟨st.heap, rest, cur :: st.visited⟩ := by
  obtain ⟨hh, sstack, vis⟩ := st
  dsimp only at hstack hv hd ⊢
  subst hstack
  rw [cascadeStep]
  dsimp only
  rw [if_neg hv, hd]

theorem cascadeStep_live (st : CascadeState) (cur : Nat) (rest : List Nat)
    (o o2 : HeapObject) (hstack : st.stack = cur :: rest) (hv : cur ∉ st.visited)
    (ho : lookupA st.heap.objects cur = some o)
    (ho2 : lookupA (processIncoming (st.heap.incomingOf cur) st.heap []).1.objects cur
      = some o2) :
    cascadeStep st =
      ⟨{ untrackOutgoing cur o2.fields (processIncoming (st.heap.incomingOf cur) st.heap []).1
          with
          incoming := eraseA (untrackOutgoing cur o2.fields
            (processIncoming (st.heap.incomingOf cur) st.heap []).1).incoming cur,
          objects := eraseA (untrackOutgoing cur o2.fields
            (processIncoming (st.heap.incomingOf cur) st.heap []).1).objects cur },
        (processIncoming (st.heap.incomingOf cur) st.heap []).2 ++ rest,
        cur :: st.visited⟩ := by
  obtain ⟨hh, sstack, vis⟩ := st
  dsimp only at hstack hv ho ho2 ⊢
  subst hstack
  rw [cascadeStep]
  dsimp only
  rw [if_neg hv, ho]
  dsimp only
  rw [ho2]

/-! ### Deadness monotonicity and the visited set -/

theorem lookup_none_of_keys_eq {α β γ : Type} [DecidableEq α] {l : List (α × β)}
    {l' : List (α × γ)} (hk : l.map Prod.fst = l'.map Prod.fst) {x : α}
    (hx : lookupA l x = none) : lookupA l' x = none := by
  rw [lookupA_eq_none_iff] at hx ⊢
  rw [← hk]
  exact hx

theorem processIncoming_lookup_none (L : List (Nat × String)) (h : Heap) (acc : List Nat)
    (x : Nat) (hx : lookupA h.objects x = none) :
    lookupA (processIncoming L h acc).1.objects x = none :=
  lookup_none_of_keys_eq (processIncoming_keys L h acc).symm hx

theorem cascadeStep_dead_mono (st : CascadeState) (x : Nat)
    (hx : lookupA st.heap.objects x = none) :
    lookupA (cascadeStep st).heap.objects x = none := by
  cases hstack : st.stack with
  | nil => rw [cascadeStep_empty st hstack]; exact hx
  | cons cur rest =>
    by_cases hv : cur ∈ st.visited
    · rw [cascadeStep_visited st cur rest hstack hv]
      exact hx
    · cases ho : lookupA st.heap.objects cur with
      | none =>
        rw [cascadeStep_dead st cur rest hstack hv ho]
        exact hx
      | some o =>
        have hcurlive : (lookupA (processIncoming (st.heap.incomingOf cur) st.heap []).1.objects
            cur).isSome = true := by
          rw [isSome_lookupA_eq_of_keys (processIncoming_keys _ _ _) cur, ho]
          rfl
        obtain ⟨o2, ho2⟩ := Option.isSome_iff_exists.mp hcurlive
        rw [cascadeStep_live st cur rest o o2 hstack hv ho ho2]
        by_cases hxc : x = cur
        · subst hxc
          exact lookupA_eraseA_self _ _
        · rw [lookupA_eraseA_ne _ _ _ hxc, untrackOutgoing_objects]
          exact processIncoming_lookup_none _ _ _ _ hx

theorem cascadeStep_visitedDead (st : CascadeState) (hvd : VisitedDead st) :
    VisitedDead (cascadeStep st) := by
  cases hstack : st.stack with
  | nil => rw [cascadeStep_empty st hstack]; exact hvd
  | cons cur rest =>
    by_cases hv : cur ∈ st.visited
    · rw [cascadeStep_visited st cur rest hstack hv]
      exact hvd
    · cases ho : lookupA st.heap.objects cur with
      | none =>
        rw [cascadeStep_dead st cur rest hstack hv ho]
        intro v hvmem
        rcases List.mem_cons.mp hvmem with h1 | h1
        · exact h1 ▸ ho
        · exact hvd v h1
      | some o =>
        have hcurlive : (lookupA (processIncoming (st.heap.incomingOf cur) st.heap []).1.objects
            cur).isSome = true := by
          rw [isSome_lookupA_eq_of_keys (processIncoming_keys _ _ _) cur, ho]
          rfl
        obtain ⟨o2, ho2⟩ := Option.isSome_iff_exists.mp hcurlive
        rw [cascadeStep_live st cur rest o o2 hstack hv ho ho2]
        intro v hvmem
        by_cases hvc : v = cur
        · subst hvc
          exact lookupA_eraseA_self _ _
        · rcases List.mem_cons.mp hvmem with h1 | h1
          · exact absurd h1 hvc
          · rw [lookupA_eraseA_ne _ _ _ hvc, untrackOutgoing_objects]
            exact processIncoming_lookup_none _ _ _ _ (hvd v h1)

/-- One cascade iteration keeps every surviving record's identifier set
intact apart from the possibly deleted current node: the stack tail is
preserved and the visited set only grows. -/
theorem cascadeStep_visited_mono (st : CascadeState) (v : Nat) (hv : v ∈ st.visited) :
    v ∈ (cascadeStep st).visited := by
  cases hstack : st.stack with
  | nil => rw [cascadeStep_empty st hstack]; exact hv
  | cons cur rest =>
    by_cases hvis : cur ∈ st.visited
    · rw [cascadeStep_visited st cur rest hstack hvis]
      exact hv
    · cases ho : lookupA st.heap.objects cur with
      | none =>
        rw [cascadeStep_dead st cur rest hstack hvis ho]
        exact List.mem_cons_of_mem _ hv
      | some o =>
        have hcurlive : (lookupA (processIncoming (st.heap.incomingOf cur) st.heap []).1.objects
            cur).isSome = true := by
          rw [isSome_lookupA_eq_of_keys (processIncoming_keys _ _ _) cur, ho]
          rfl
        obtain ⟨o2, ho2⟩ := Option.isSome_iff_exists.mp hcurlive
        rw [cascadeStep_live st cur rest o o2 hstack hvis ho ho2]
        exact List.mem_cons_of_mem _ hv

/-- Generic preservation of an invariant along the fuel-bounded run. -/
theorem runCascade_preserve (P : CascadeState → Prop)
    (hP : ∀ st, P st → P (cascadeStep st)) (fuel : Nat) (st : CascadeState) (h : P st) :
    P (runCascade fuel st) := by
  induction fuel generalizing st with
  | zero => exact h
  | succ f ih =>
    cases hstack : st.stack with
    | nil =>
      rw [runCascade, hstack]
      exact h
    | cons cur rest =>
      rw [runCascade, hstack]
      exact ih _ (hP st h)

/-! ### Termination of the cascade loop -/

theorem sum_map_filter_le (l : List Nat) (p : Nat → Bool) (w : Nat → Nat) :
    ((l.filter p).map w).sum ≤ (l.map w).sum := by
  induction l with
  | nil => simp
  | cons a rest ih =>
    rw [List.filter_cons]
    by_cases hp : p a = true
    · rw [if_pos hp]
      simp only [List.map_cons, List.sum_cons]
      omega
    · rw [if_neg hp]
      simp only [List.map_cons, List.sum_cons]
      omega

theorem sum_filter_ne_add_le (l : List Nat) (w : Nat → Nat) (c : Nat) (hc : c ∈ l) :
    ((l.filter (fun x => decide (x ≠ c))).map w).sum + w c ≤ (l.map w).sum := by
  induction l with
  | nil => simp at hc
  | cons a rest ih =>
    simp only [List.filter_cons]
    by_cases hac : a = c
    · have hd : (decide (a ≠ c)) = false := by simp [hac]
      rw [hd, if_neg Bool.false_ne_true]
      rw [List.map_cons, List.sum_cons]
      have h1 := sum_map_filter_le rest (fun x => decide (x ≠ c)) w
      have hw : w a = w c := by rw [hac]
      omega
    · have hd : (decide (a ≠ c)) = true := by simp [hac]
      rw [hd, if_pos rfl]
      rw [List.map_cons, List.map_cons, List.sum_cons, List.sum_cons]
      have hcrest : c ∈ rest := by
        rcases List.mem_cons.mp hc with h1 | h1
        · exact absurd h1.symm hac
        · exact h1
      have := ih hcrest
      omega

theorem measure_cascadeStep (st : CascadeState) (cur : Nat) (rest : List Nat)
    (hstack : st.stack = cur :: rest) :
    (cascadeStep st).measure < st.measure := by
  by_cases hv : cur ∈ st.visited
  · rw [cascadeStep_visited st cur rest hstack hv]
    rw [CascadeState.measure, CascadeState.measure, CascadeState.pending, CascadeState.pending,
      hstack]
    simp only [List.length_cons]
    omega
  · cases ho : lookupA st.heap.objects cur with
    | none =>
      rw [cascadeStep_dead st cur rest hstack hv ho]
      rw [CascadeState.measure, CascadeState.measure, CascadeState.pending, CascadeState.pending,
        hstack]
      have hcurkeys : cur ∉ st.heap.objects.map Prod.fst := (lookupA_eq_none_iff _ _).mp ho
      have hfeq : (st.heap.objects.map Prod.fst).filter (fun id => decide (id ∉ cur :: st.visited))
          = (st.heap.objects.map Prod.fst).filter (fun id => decide (id ∉ st.visited)) := by
        apply List.filter_congr
        intro x hx
        have hxc : x ≠ cur := fun he => hcurkeys (he ▸ hx)
        apply decide_eq_decide.mpr
        rw [List.mem_cons]
        constructor
        · intro hnot hmem
          exact hnot (Or.inr hmem)
        · intro hnot hmem
          rcases hmem with h1 | h1
          · exact hxc h1
          · exact hnot h1
      simp only [List.length_cons, hfeq]
      omega
    | some o =>
      have hcurlive : (lookupA (processIncoming (st.heap.incomingOf cur) st.heap []).1.objects
          cur).isSome = true := by
        rw [isSome_lookupA_eq_of_keys (processIncoming_keys _ _ _) cur, ho]
        rfl
      obtain ⟨o2, ho2⟩ := Option.isSome_iff_exists.mp hcurlive
      rw [cascadeStep_live st cur rest o o2 hstack hv ho ho2]
      rw [CascadeState.measure, CascadeState.measure, CascadeState.pending, CascadeState.pending,
        hstack]
      simp only [List.length_cons, List.length_append]
      set K := st.heap.objects.map Prod.fst with hK
      set L := st.heap.incomingOf cur with hL
      set pr := processIncoming L st.heap [] with hpr
      set h3 := untrackOutgoing cur o2.fields pr.1 with hh3
      set h4 : Heap := { h3 with incoming := eraseA h3.incoming cur, objects := eraseA h3.objects cur } with hh4
      have hkeys3 : h3.objects.map Prod.fst = K := by
        rw [hh3, untrackOutgoing_objects, hpr, processIncoming_keys]
      have h4objects : h4.objects = eraseA h3.objects cur := by rw [hh4]
      have hkeys4 : h4.objects.map Prod.fst = K.filter (fun x => decide (x ≠ cur)) := by
        rw [h4objects, keys_eraseA, hkeys3]
      have hpend : (h4.objects.map Prod.fst).filter (fun id => decide (id ∉ cur :: st.visited))
          = (K.filter (fun id => decide (id ∉ st.visited))).filter
            (fun x => decide (x ≠ cur)) := by
        rw [hkeys4, List.filter_filter, List.filter_filter]
        apply List.filter_congr
        intro x hx
        by_cases hxc : x = cur
        · subst hxc
          simp
        · simp [hxc]
      have hweight : ∀ x, x ≠ cur → h4.weightOf x ≤ st.heap.weightOf x := by
        intro x hxc
        rw [Heap.weightOf, Heap.weightOf]
        have h4inc : h4.incomingOf x = h3.incomingOf x := by
          rw [Heap.incomingOf, Heap.incomingOf, hh4]
          dsimp only
          exact congrArg (fun q : Option (List (Nat × String)) => q.getD [])
            (lookupA_eraseA_ne h3.incoming cur x hxc)
        rw [h4inc]
        have h1 := untrackOutgoing_incoming_len cur o2.fields pr.1 x
        have h2 := processIncoming_incoming_len L st.heap [] x
        rw [← hh3] at h1
        rw [← hpr] at h2
        omega
      have hsum1 : (((K.filter (fun id => decide (id ∉ st.visited))).filter
            (fun x => decide (x ≠ cur))).map h4.weightOf).sum
          ≤ (((K.filter (fun id => decide (id ∉ st.visited))).filter
            (fun x => decide (x ≠ cur))).map st.heap.weightOf).sum := by
        apply List.sum_le_sum
        intro x hxmem
        have hxne : x ≠ cur := by
          have := (List.mem_filter.mp hxmem).2
          simpa using this
        exact hweight x hxne
      have hcurpend : cur ∈ K.filter (fun id => decide (id ∉ st.visited)) := by
        apply List.mem_filter.mpr
        refine ⟨?_, by simpa using hv⟩
        rw [hK]
        exact lookupA_isSome_mem_keys (by simp [ho])
      have hsum2 := sum_filter_ne_add_le (K.filter (fun id => decide (id ∉ st.visited)))
        st.heap.weightOf cur hcurpend
      have hwcur : st.heap.weightOf cur = 1 + L.length := by
        rw [Heap.weightOf, hL]
      have hpush : pr.2.length ≤ L.length := by
        have := processIncoming_pushed_length L st.heap []
        rw [← hpr] at this
        simpa using this
      rw [hpend]
      omega

theorem measure_ge_stack (st : CascadeState) : st.stack.length ≤ st.measure := by
  rw [CascadeState.measure]
  omega

theorem runCascade_terminates (fuel : Nat) (st : CascadeState)
    (hf : st.measure ≤ fuel) : (runCascade fuel st).stack = [] := by
  induction fuel generalizing st with
  | zero =>
    have h1 := measure_ge_stack st
    have h2 : st.stack.length = 0 := by omega
    rw [runCascade]
    exact List.length_eq_zero.mp h2
  | succ f ih =>
    cases hstack : st.stack with
    | nil =>
      rw [runCascade, hstack]
      exact hstack
    | cons cur rest =>
      rw [runCascade, hstack]
      apply ih
      have := measure_cascadeStep st cur rest hstack
      omega

theorem runCascade_dead_mono (fuel : Nat) (st : CascadeState) (x : Nat)
    (hx : lookupA st.heap.objects x = none) :
    lookupA (runCascade fuel st).heap.objects x = none :=
  runCascade_preserve (fun s => lookupA s.heap.objects x = none)
    (fun s hs => cascadeStep_dead_mono s x hs) fuel st hx

theorem cascadeStep_pending_dead (st : CascadeState) (x : Nat) (hvd : VisitedDead st)
    (hx : x ∈ st.stack ∨ lookupA st.heap.objects x = none) :
    x ∈ (cascadeStep st).stack ∨ lookupA (cascadeStep st).heap.objects x = none := by
  rcases hx with hx | hx
  · cases hstack : st.stack with
    | nil =>
      rw [hstack] at hx
      simp at hx
    | cons cur rest =>
      rw [hstack] at hx
      rcases List.mem_cons.mp hx with h1 | h1
      · subst h1
        by_cases hv : x ∈ st.visited
        · rw [cascadeStep_visited st x rest hstack hv]
          exact Or.inr (hvd x hv)
        · cases ho : lookupA st.heap.objects x with
          | none =>
            rw [cascadeStep_dead st x rest hstack hv ho]
            exact Or.inr ho
          | some o =>
            have hcurlive : (lookupA (processIncoming (st.heap.incomingOf x) st.heap []).1.objects
                x).isSome = true := by
              rw [isSome_lookupA_eq_of_keys (processIncoming_keys _ _ _) x, ho]
              rfl
            obtain ⟨o2, ho2⟩ := Option.isSome_iff_exists.mp hcurlive
            rw [cascadeStep_live st x rest o o2 hstack hv ho ho2]
            exact Or.inr (lookupA_eraseA_self _ _)
      · by_cases hv : cur ∈ st.visited
        · rw [cascadeStep_visited st cur rest hstack hv]
          exact Or.inl h1
        · cases ho : lookupA st.heap.objects cur with
          | none =>
            rw [cascadeStep_dead st cur rest hstack hv ho]
            exact Or.inl h1
          | some o =>
            have hcurlive : (lookupA (processIncoming (st.heap.incomingOf cur) st.heap []).1.objects
                cur).isSome = true := by
              rw [isSome_lookupA_eq_of_keys (processIncoming_keys _ _ _) cur, ho]
              rfl
            obtain ⟨o2, ho2⟩ := Option.isSome_iff_exists.mp hcurlive
            rw [cascadeStep_live st cur rest o o2 hstack hv ho ho2]
            exact Or.inl (List.mem_append_right _ h1)
  · exact Or.inr (cascadeStep_dead_mono st x hx)

theorem runCascade_stack_dead (fuel : Nat) (st : CascadeState) (x : Nat)
    (hvd : VisitedDead st) (hf : st.measure ≤ fuel)
    (hx : x ∈ st.stack ∨ lookupA st.heap.objects x = none) :
    lookupA (runCascade fuel st).heap.objects x = none := by
  induction fuel generalizing st with
  | zero =>
    have h1 := measure_ge_stack st
    have h2 : st.stack.length = 0 := by omega
    have h3 : st.stack = [] := List.length_eq_zero.mp h2
    rw [runCascade]
    rcases hx with hx | hx
    · rw [h3] at hx
      simp at hx
    · exact hx
  | succ f ih =>
    cases hstack : st.stack with
    | nil =>
      rw [runCascade, hstack]
      rcases hx with hx | hx
      · rw [hstack] at hx
        simp at hx
      · exact hx
    | cons cur rest =>
      rw [runCascade, hstack]
      apply ih
      · exact cascadeStep_visitedDead st hvd
      · have := measure_cascadeStep st cur rest hstack
        omega
      · exact cascadeStep_pending_dead st x hvd hx

theorem visitedDead_init (h : Heap) (id : Nat) : VisitedDead ⟨h, [id], []⟩ := by
  intro v hv
  simp at hv

theorem deleteObjectCascade_kills (h : Heap) (id : Nat) (hl : h.isLive id = true) :
    lookupA (h.deleteObjectCascade id).objects id = none := by
  rw [Heap.deleteObjectCascade]
  exact runCascade_stack_dead _ _ id (visitedDead_init h id) (Nat.le_refl _)
    (Or.inl (List.mem_cons_self _ _))

/-- C7: the cascade-delete loop terminates on every heap state and root
identifier: running it with the computed fuel `Heap.cascadeFuel` drains
the work stack completely, cycles included — the visited set plus the
shrinking object table bound the number of iterations. -/
theorem deleteObjectCascade_terminates (h : Heap) (id : Nat) :
    (runCascade (h.cascadeFuel id) ⟨h, [id], []⟩).stack = [] :=
  runCascade_terminates (h.cascadeFuel id) ⟨h, [id], []⟩ (Nat.le_refl _)

/-- C2: for a live parent, `setField parent name null true` installs no
write; it cascades instead, so the parent is dead when the call returns
and its field reads back as absent. -/
theorem setField_null_mandatory_deletes (h : Heap) (p : Nat) (name : String)
    (hl : h.isLive p = true) :
    (h.setField p name Value.vnull true).isLive p = false ∧
      (h.setField p name Value.vnull true).getField p name = none := by
  obtain ⟨parent, hparent⟩ := lookup_of_isLive hl
  rw [Heap.setField, hparent]
  dsimp only
  rw [if_pos ⟨rfl, rfl⟩]
  have hdead : ∀ h1 : Heap, h1.objects = h.objects →
      (h1.deleteObjectCascade p).isLive p = false ∧
        (h1.deleteObjectCascade p).getField p name = none := by
    intro h1 hobj
    have hl1 : h1.isLive p = true := by
      rw [Heap.isLive, hobj]
      exact hl
    have hd := deleteObjectCascade_kills h1 p hl1
    constructor
    · rw [Heap.isLive, hd]
      rfl
    · rw [Heap.getField, hd]
  cases hpf : lookupA parent.fields name with
  | none => exact hdead h rfl
  | some prev => exact hdead _ (untrack_objects h prev (p, name))

/-- C8: a `setField` on a dead identifier returns with the whole heap
state unchanged, whatever the name, value and mandatoriness flag. -/
theorem setField_dead_noop (h : Heap) (p : Nat) (name : String) (v : Value) (m : Bool)
    (hd : h.isLive p = false) : h.setField p name v m = h := by
  have hnone : lookupA h.objects p = none := by
    rw [Heap.isLive] at hd
    exact Option.not_isSome_iff_eq_none.mp (by simp [hd])
  rw [Heap.setField, hnone]

/-- C9: `getField` returns the stored value when the object is live and
the field present, and the absent result when the field is missing or
the object is dead (the interpreter reads that absence as null). -/
theorem getField_contract (h : Heap) (id : Nat) (name : String) :
    (∀ o v, lookupA h.objects id = some o → lookupA o.fields name = some v →
      h.getField id name = some v) ∧
    (∀ o, lookupA h.objects id = some o → lookupA o.fields name = none →
      h.getField id name = none) ∧
    (h.isLive id = false → h.getField id name = none) := by
  refine ⟨?_, ?_, ?_⟩
  · intro o v ho hv
    rw [Heap.getField, ho]
    exact hv
  · intro o ho hv
    rw [Heap.getField, ho]
    exact hv
  · intro hd
    have hnone : lookupA h.objects id = none := by
      rw [Heap.isLive] at hd
      exact Option.not_isSome_iff_eq_none.mp (by simp [hd])
    rw [Heap.getField, hnone]

/-- C6: writing null to a field with `isMandatory = false` on a live
object keeps the holder live, stores null in that field, touches no
other field of the holder and no other object record, and fires no
cascade. -/
theorem setField_optional_null_frame (h : Heap) (p : Nat) (f : String) (o : HeapObject)
    (ho : lookupA h.objects p = some o) :
    (h.setField p f Value.vnull false).isLive p = true ∧
    (h.setField p f Value.vnull false).getField p f = some Value.vnull ∧
    (∀ g, g ≠ f → (h.setField p f Value.vnull false).getField p g = h.getField p g) ∧
    (∀ q, q ≠ p → lookupA (h.setField p f Value.vnull false).objects q = lookupA h.objects q) ∧
    (h.setField p f Value.vnull false).typeNameOf p = h.typeNameOf p := by
  have main : ∀ h1 : Heap, h1.objects = h.objects →
      ((h1.setRawField p f Value.vnull).isLive p = true ∧
       (h1.setRawField p f Value.vnull).getField p f = some Value.vnull ∧
       (∀ g, g ≠ f → (h1.setRawField p f Value.vnull).getField p g = h.getField p g) ∧
       (∀ q, q ≠ p →
         lookupA (h1.setRawField p f Value.vnull).objects q = lookupA h.objects q) ∧
       (h1.setRawField p f Value.vnull).typeNameOf p = h.typeNameOf p) := by
    intro h1 hobj
    have ho1 : lookupA h1.objects p = some o := by rw [hobj]; exact ho
    have hset := setRawField_of_live h1 p f Value.vnull o ho1
    have hlook : lookupA (h1.setRawField p f Value.vnull).objects p
        = some { o with fields := setAssoc o.fields f Value.vnull } := by
      rw [hset]
      dsimp only
      rw [hobj]
      exact lookupA_setAssoc_self _ _ _
    refine ⟨?_, ?_, ?_, ?_, ?_⟩
    · rw [Heap.isLive, hlook]
      rfl
    · rw [Heap.getField, hlook]
      exact lookupA_setAssoc_self _ _ _
    · intro g hg
      rw [Heap.getField, hlook, Heap.getField, ho]
      exact lookupA_setAssoc_ne _ _ _ _ hg
    · intro q hq
      rw [hset]
      dsimp only
      rw [hobj]
      exact lookupA_setAssoc_ne _ _ _ _ hq
    · rw [Heap.typeNameOf, Heap.typeNameOf, hlook, ho]
  rw [Heap.setField, ho]
  dsimp only
  rw [if_neg (by simp)]
  have htrack : ∀ hh : Heap, ∀ pk, hh.trackIncomingIfObject Value.vnull pk = hh := fun _ _ => rfl
  cases hpf : lookupA o.fields f with
  | none =>
    rw [htrack]
    exact main h rfl
  | some prev =>
    rw [htrack]
    exact main _ (untrack_objects h prev (p, f))

/-- C10: `arrayPush` on a live `__array__` object with numeric length n
stores the value under the decimal field name of n, bumps `length` to
n+1, leaves every other field and every other object unchanged, and
records the back-edge when the value is a live object identifier. -/
theorem arrayPush_spec (h : Heap) (id : Nat) (v : Value) (o : HeapObject) (n : Nat)
    (ho : lookupA h.objects id = some o) (htn : o.typeName = some "__array__")
    (hlen : lookupA o.fields "length" = some (Value.vnum n)) :
    lookupA (h.arrayPush id v).objects id =
      some ⟨o.typeName, setAssoc (setAssoc o.fields (toString n) v) "length"
        (Value.vnum (n + 1))⟩ ∧
    (h.arrayPush id v).getField id "length" = some (Value.vnum (n + 1)) ∧
    (toString n ≠ "length" → (h.arrayPush id v).getField id (toString n) = some v) ∧
    (∀ g, g ≠ toString n → g ≠ "length" → (h.arrayPush id v).getField id g = h.getField id g) ∧
    (∀ q, q ≠ id → lookupA (h.arrayPush id v).objects q = lookupA h.objects q) ∧
    (∀ c, v = Value.vnum c → h.isLive c = true →
      (id, toString n) ∈ (h.arrayPush id v).incomingOf c) := by
  have hpush : h.arrayPush id v =
      (((h.setRawField id (toString n) v).setRawField id "length"
        (Value.vnum (n + 1))).trackIncomingIfObject v (id, toString n)) := by
    rw [Heap.arrayPush, ho]
    dsimp only
    rw [if_pos htn, hlen]
  have hset2 := setRawField_of_live h id (toString n) v o ho
  have ho2 : lookupA (h.setRawField id (toString n) v).objects id
      = some { o with fields := setAssoc o.fields (toString n) v } := by
    rw [hset2]
    dsimp only
    exact lookupA_setAssoc_self _ _ _
  have hset3 := setRawField_of_live (h.setRawField id (toString n) v) id "length"
    (Value.vnum (n + 1)) _ ho2
  have ho3 : lookupA ((h.setRawField id (toString n) v).setRawField id "length"
      (Value.vnum (n + 1))).objects id
      = some ⟨o.typeName, setAssoc (setAssoc o.fields (toString n) v) "length"
        (Value.vnum (n + 1))⟩ := by
    rw [hset3]
    dsimp only
    exact lookupA_setAssoc_self _ _ _
  have hfinal : lookupA (h.arrayPush id v).objects id
      = some ⟨o.typeName, setAssoc (setAssoc o.fields (toString n) v) "length"
        (Value.vnum (n + 1))⟩ := by
    rw [hpush, track_objects]
    exact ho3
  refine ⟨hfinal, ?_, ?_, ?_, ?_, ?_⟩
  · rw [Heap.getField, hfinal]
    exact lookupA_setAssoc_self _ _ _
  · intro hne
    rw [Heap.getField, hfinal]
    dsimp only
    rw [lookupA_setAssoc_ne _ _ _ _ hne]
    exact lookupA_setAssoc_self _ _ _
  · intro g hg1 hg2
    rw [Heap.getField, hfinal, Heap.getField, ho]
    dsimp only
    rw [lookupA_setAssoc_ne _ _ _ _ hg2, lookupA_setAssoc_ne _ _ _ _ hg1]
  · intro q hq
    rw [hpush, track_objects, hset3]
    dsimp only
    rw [lookupA_setAssoc_ne _ _ _ _ hq, hset2]
    dsimp only
    rw [lookupA_setAssoc_ne _ _ _ _ hq]
  · intro c hv hc
    subst hv
    rw [hpush, track_incomingOf]
    have hkeys : ((h.setRawField id (toString n) (Value.vnum c)).setRawField id "length"
        (Value.vnum (n + 1))).objects.map Prod.fst = h.objects.map Prod.fst := by
      rw [setRawField_keys, setRawField_keys]
    have hlive : (lookupA ((h.setRawField id (toString n) (Value.vnum c)).setRawField id "length"
        (Value.vnum (n + 1))).objects c).isSome = true := by
      rw [isSome_lookupA_eq_of_keys hkeys c]
      rw [Heap.isLive] at hc
      exact hc
    rw [if_pos ⟨rfl, hlive⟩]
    exact mem_addToSet_self _ _

/-! ### Numeric values as references: tracking helpers -/

theorem trackAll_objects (h : Heap) (id : Nat) (L : List (String × Value)) :
    (h.trackAll id L).objects = h.objects := by
  induction L generalizing h with
  | nil => rfl
  | cons kv rest ih =>
    obtain ⟨k, v⟩ := kv
    rw [Heap.trackAll, ih, track_objects]

theorem track_incoming_mono (h : Heap) (v : Value) (pk : Nat × String) (e : Nat × String)
    (c : Nat) (he : e ∈ h.incomingOf c) : e ∈ (h.trackIncomingIfObject v pk).incomingOf c := by
  rw [track_incomingOf]
  by_cases hc : v = Value.vnum c ∧ (lookupA h.objects c).isSome = true
  · rw [if_pos hc]
    exact mem_addToSet_of_mem _ he
  · rw [if_neg hc]
    exact he

theorem trackAll_incoming_mono (h : Heap) (id : Nat) (L : List (String × Value))
    (e : Nat × String) (c : Nat) (he : e ∈ h.incomingOf c) :
    e ∈ (h.trackAll id L).incomingOf c := by
  induction L generalizing h with
  | nil => exact he
  | cons kv rest ih =>
    obtain ⟨k, v⟩ := kv
    rw [Heap.trackAll]
    exact ih _ (track_incoming_mono h v (id, k) e c he)

theorem trackAll_mem (h : Heap) (id : Nat) (L : List (String × Value)) (f : String) (n : Nat)
    (hmem : (f, Value.vnum n) ∈ L) (hlive : (lookupA h.objects n).isSome = true) :
    (id, f) ∈ (h.trackAll id L).incomingOf n := by
  induction L generalizing h with
  | nil => simp at hmem
  | cons kv rest ih =>
    obtain ⟨k, v⟩ := kv
    rw [Heap.trackAll]
    rcases List.mem_cons.mp hmem with h1 | h1
    · have hk : k = f := (Prod.mk.injEq .. ▸ h1.symm).1
      have hv : v = Value.vnum n := (Prod.mk.injEq .. ▸ h1.symm).2
      subst hk
      subst hv
      apply trackAll_incoming_mono
      rw [track_incomingOf, if_pos ⟨rfl, hlive⟩]
      exact mem_addToSet_self _ _
    · apply ih _ h1
      rw [track_objects]
      exact hlive

theorem createObject_tracks (h : Heap) (tn : Option String) (init : List (String × Value))
    (f : String) (n : Nat) (hmem : (f, Value.vnum n) ∈ buildFields [] init)
    (hlive : h.isLive n = true) :
    (h.nextId, f) ∈ (h.createObject tn init).2.incomingOf n := by
  rw [Heap.createObject]
  dsimp only
  apply trackAll_mem
  · exact hmem
  · by_cases hn : n = h.nextId
    · subst hn
      rw [lookupA_setAssoc_self]
      rfl
    · rw [lookupA_setAssoc_ne _ _ _ _ hn]
      rw [Heap.isLive] at hlive
      exact hlive

theorem setArrayElems_objects_keys (h : Heap) (id : Nat) (i : Nat) (elems : List Value) :
    (h.setArrayElems id i elems).objects.map Prod.fst = h.objects.map Prod.fst := by
  induction elems generalizing h i with
  | nil => rfl
  | cons v rest ih =>
    rw [Heap.setArrayElems, ih, track_objects, setRawField_keys]

theorem setArrayElems_incoming_mono (h : Heap) (id : Nat) (i : Nat) (elems : List Value)
    (e : Nat × String) (c : Nat) (he : e ∈ h.incomingOf c) :
    e ∈ (h.setArrayElems id i elems).incomingOf c := by
  induction elems generalizing h i with
  | nil => exact he
  | cons v rest ih =>
    rw [Heap.setArrayElems]
    apply ih
    apply track_incoming_mono
    have : (h.setRawField id (toString i) v).incomingOf c = h.incomingOf c := by
      rw [Heap.incomingOf, Heap.incomingOf, setRawField_incoming]
    rw [this]
    exact he

theorem setArrayElems_mem (h : Heap) (id : Nat) (i : Nat) (elems : List Value)
    (j : Nat) (n : Nat) (hj : elems.get? j = some (Value.vnum n))
    (hlive : (lookupA h.objects n).isSome = true) :
    (id, toString (i + j)) ∈ (h.setArrayElems id i elems).incomingOf n := by
  induction elems generalizing h i j with
  | nil => simp at hj
  | cons v rest ih =>
    cases j with
    | zero =>
      rw [List.get?_cons_zero] at hj
      have hv : v = Value.vnum n := Option.some.inj hj
      subst hv
      rw [Heap.setArrayElems]
      apply setArrayElems_incoming_mono
      rw [track_incomingOf]
      have hlive2 : (lookupA (h.setRawField id (toString i) (Value.vnum n)).objects n).isSome
          = true := by
        rw [isSome_lookupA_eq_of_keys (setRawField_keys h id (toString i) (Value.vnum n)) n]
        exact hlive
      rw [if_pos ⟨rfl, hlive2⟩]
      have : (h.setRawField id (toString i) (Value.vnum n)).incomingOf n = h.incomingOf n := by
        rw [Heap.incomingOf, Heap.incomingOf, setRawField_incoming]
      rw [this]
      have harith : i + 0 = i := by omega
      rw [harith]
      exact mem_addToSet_self _ _
    | succ k =>
      rw [List.get?_cons_succ] at hj
      rw [Heap.setArrayElems]
      have harith : i + (k + 1) = (i + 1) + k := by omega
      rw [harith]
      apply ih
      · exact hj
      · rw [isSome_lookupA_eq_of_keys _ n]
        · exact hlive
        · rw [track_objects, setRawField_keys]

theorem createArray_tracks (h : Heap) (elems : List Value) (j : Nat) (n : Nat)
    (hj : elems.get? j = some (Value.vnum n)) (hlive : h.isLive n = true) :
    (h.nextId, toString j) ∈ (h.createArray elems).2.incomingOf n := by
  rw [Heap.createArray]
  dsimp only
  have hfst : (h.createObject (some "__array__") []).1 = h.nextId := rfl
  rw [hfst]
  have hinc : ∀ hh : Heap, (hh.setRawField h.nextId "length"
      (Value.vnum elems.length)).incomingOf n = hh.incomingOf n := by
    intro hh
    rw [Heap.incomingOf, Heap.incomingOf, setRawField_incoming]
  rw [hinc]
  have hz : (0 : Nat) + j = j := by omega
  rw [← hz]
  apply setArrayElems_mem
  · exact hj
  · have hsnd : (h.createObject (some "__array__") []).2 = { h with nextId := h.nextId + 1, objects := setAssoc h.objects h.nextId ⟨some "__array__", []⟩ } := rfl
    rw [hsnd]
    dsimp only
    by_cases hn : n = h.nextId
    · subst hn
      rw [lookupA_setAssoc_self]
      rfl
    · rw [lookupA_setAssoc_ne _ _ _ _ hn]
      rw [Heap.isLive] at hlive
      exact hlive

theorem setField_tracks (h : Heap) (p : Nat) (f : String) (n : Nat) (m : Bool)
    (parent : HeapObject) (hp : lookupA h.objects p = some parent) (hlive : h.isLive n = true) :
    (p, f) ∈ (h.setField p f (Value.vnum n) m).incomingOf n := by
  rw [Heap.setField, hp]
  dsimp only
  rw [if_neg (by simp)]
  have main : ∀ h1 : Heap, h1.objects = h.objects →
      (p, f) ∈ ((h1.setRawField p f (Value.vnum n)).trackIncomingIfObject (Value.vnum n)
        (p, f)).incomingOf n := by
    intro h1 hobj
    rw [track_incomingOf]
    have hl2 : (lookupA (h1.setRawField p f (Value.vnum n)).objects n).isSome = true := by
      rw [isSome_lookupA_eq_of_keys (setRawField_keys h1 p f (Value.vnum n)) n, hobj]
      rw [Heap.isLive] at hlive
      exact hlive
    rw [if_pos ⟨rfl, hl2⟩]
    exact mem_addToSet_self _ _
  cases hpf : lookupA parent.fields f with
  | none => exact main h rfl
  | some prev => exact main _ (untrack_objects h prev (p, f))

theorem arrayPush_tracks (h : Heap) (id : Nat) (o : HeapObject) (len : Nat) (n : Nat)
    (ho : lookupA h.objects id = some o) (htn : o.typeName = some "__array__")
    (hlen : lookupA o.fields "length" = some (Value.vnum len)) (hlive : h.isLive n = true) :
    (id, toString len) ∈ (h.arrayPush id (Value.vnum n)).incomingOf n := by
  have hpush : h.arrayPush id (Value.vnum n) =
      (((h.setRawField id (toString len) (Value.vnum n)).setRawField id "length"
        (Value.vnum (len + 1))).trackIncomingIfObject (Value.vnum n) (id, toString len)) := by
    rw [Heap.arrayPush, ho]
    dsimp only
    rw [if_pos htn, hlen]
  rw [hpush, track_incomingOf]
  have hl2 : (lookupA ((h.setRawField id (toString len) (Value.vnum n)).setRawField id "length"
      (Value.vnum (len + 1))).objects n).isSome = true := by
    rw [isSome_lookupA_eq_of_keys _ n]
    · rw [Heap.isLive] at hlive
      exact hlive
    · rw [setRawField_keys, setRawField_keys]
  rw [if_pos ⟨rfl, hl2⟩]
  exact mem_addToSet_self _ _

/-! ### Cascade consequences of tracked numeric references -/

theorem measure_init_eq (h : Heap) (n : Nat) :
    CascadeState.measure ⟨h, [n], []⟩ = h.cascadeFuel n := rfl

theorem cascade_mandatory_parent_dead (h : Heap) (holder n : Nat) (f : String)
    (ho : HeapObject) (hho : lookupA h.objects holder = some ho) (hn : h.isLive n = true)
    (hedge : (holder, f) ∈ h.incomingOf n)
    (hmand : h.isFieldMandatory (h.typeNameOf holder) f = true) :
    lookupA (h.deleteObjectCascade n).objects holder = none := by
  by_cases hhn : holder = n
  · subst hhn
    exact deleteObjectCascade_kills h holder hn
  · obtain ⟨no, hno⟩ := lookup_of_isLive hn
    have hcurlive : (lookupA (processIncoming (h.incomingOf n) h []).1.objects n).isSome
        = true := by
      rw [isSome_lookupA_eq_of_keys (processIncoming_keys _ _ _) n, hno]
      rfl
    obtain ⟨o2, ho2⟩ := Option.isSome_iff_exists.mp hcurlive
    have hfuel1 : 1 ≤ h.cascadeFuel n := by
      have := measure_ge_stack ⟨h, [n], []⟩
      rw [measure_init_eq] at this
      simpa using this
    obtain ⟨f0, hf0⟩ : ∃ f0, h.cascadeFuel n = f0 + 1 := ⟨h.cascadeFuel n - 1, by omega⟩
    rw [Heap.deleteObjectCascade, hf0, runCascade]
    dsimp only
    have hstep := cascadeStep_live ⟨h, [n], []⟩ n [] no o2 rfl (by simp) hno ho2
    rw [hstep]
    apply runCascade_stack_dead
    · intro v hv
      have hvn : v = n := by simpa using hv
      subst hvn
      exact lookupA_eraseA_self _ _
    · have hdec := measure_cascadeStep ⟨h, [n], []⟩ n [] rfl
      rw [hstep, measure_init_eq, hf0] at hdec
      omega
    · refine Or.inl (List.mem_append_left _ ?_)
      exact processIncoming_pushes (h.incomingOf n) h [] holder f hedge
        (isLive_of_lookup hho) hmand

theorem cascadeStep_preserves_nullfield (holder : Nat) (f : String) (st : CascadeState)
    (hp : lookupA st.heap.objects holder = none ∨ ∃ o', lookupA st.heap.objects holder = some o'
      ∧ lookupA o'.fields f = some Value.vnull) :
    lookupA (cascadeStep st).heap.objects holder = none ∨
      ∃ o', lookupA (cascadeStep st).heap.objects holder = some o' ∧
        lookupA o'.fields f = some Value.vnull := by
  rcases hp with hd | ⟨o', ho', hnull⟩
  · exact Or.inl (cascadeStep_dead_mono st holder hd)
  · cases hstack : st.stack with
    | nil =>
      rw [cascadeStep_empty st hstack]
      exact Or.inr ⟨o', ho', hnull⟩
    | cons cur rest =>
      by_cases hv : cur ∈ st.visited
      · rw [cascadeStep_visited st cur rest hstack hv]
        exact Or.inr ⟨o', ho', hnull⟩
      · cases ho : lookupA st.heap.objects cur with
        | none =>
          rw [cascadeStep_dead st cur rest hstack hv ho]
          exact Or.inr ⟨o', ho', hnull⟩
        | some o =>
          have hcurlive : (lookupA (processIncoming (st.heap.incomingOf cur) st.heap []).1.objects
              cur).isSome = true := by
            rw [isSome_lookupA_eq_of_keys (processIncoming_keys _ _ _) cur, ho]
            rfl
          obtain ⟨o2, ho2⟩ := Option.isSome_iff_exists.mp hcurlive
          rw [cascadeStep_live st cur rest o o2 hstack hv ho ho2]
          by_cases hhc : holder = cur
          · subst hhc
            exact Or.inl (lookupA_eraseA_self _ _)
          · obtain ⟨o'', ho'', hnull''⟩ := processIncoming_preserves_null
              (st.heap.incomingOf cur) st.heap [] holder f o' ho' hnull
            refine Or.inr ⟨o'', ?_, hnull''⟩
            rw [lookupA_eraseA_ne _ _ _ hhc, untrackOutgoing_objects]
            exact ho''

theorem cascade_parent_field_nulled (h : Heap) (holder n : Nat) (f : String)
    (hho : h.isLive holder = true) (hn : h.isLive n = true)
    (hedge : (holder, f) ∈ h.incomingOf n) :
    lookupA (h.deleteObjectCascade n).objects holder = none ∨
      (h.deleteObjectCascade n).getField holder f = some Value.vnull := by
  by_cases hhn : holder = n
  · subst hhn
    exact Or.inl (deleteObjectCascade_kills h holder hn)
  · obtain ⟨no, hno⟩ := lookup_of_isLive hn
    have hcurlive : (lookupA (processIncoming (h.incomingOf n) h []).1.objects n).isSome
        = true := by
      rw [isSome_lookupA_eq_of_keys (processIncoming_keys _ _ _) n, hno]
      rfl
    obtain ⟨o2, ho2⟩ := Option.isSome_iff_exists.mp hcurlive
    have hfuel1 : 1 ≤ h.cascadeFuel n := by
      have := measure_ge_stack ⟨h, [n], []⟩
      rw [measure_init_eq] at this
      simpa using this
    obtain ⟨f0, hf0⟩ : ∃ f0, h.cascadeFuel n = f0 + 1 := ⟨h.cascadeFuel n - 1, by omega⟩
    rw [Heap.deleteObjectCascade, hf0, runCascade]
    dsimp only
    have hstep := cascadeStep_live ⟨h, [n], []⟩ n [] no o2 rfl (by simp) hno ho2
    obtain ⟨o', hpo', hnull⟩ := processIncoming_nulls (h.incomingOf n) h [] holder f hedge hho
    have hinit : lookupA (cascadeStep ⟨h, [n], []⟩).heap.objects holder = none ∨
        ∃ o', lookupA (cascadeStep ⟨h, [n], []⟩).heap.objects holder = some o' ∧
          lookupA o'.fields f = some Value.vnull := by
      rw [hstep]
      refine Or.inr ⟨o', ?_, hnull⟩
      dsimp only
      rw [lookupA_eraseA_ne _ _ _ hhn, untrackOutgoing_objects]
      exact hpo'
    have hrun := runCascade_preserve (fun st => lookupA st.heap.objects holder = none ∨
        ∃ o', lookupA st.heap.objects holder = some o' ∧
          lookupA o'.fields f = some Value.vnull)
      (fun st hst => cascadeStep_preserves_nullfield holder f st hst) f0 _ hinit
    rcases hrun with hd | ⟨o'', ho'', hnull''⟩
    · exact Or.inl hd
    · right
      rw [Heap.getField, ho'']
      exact hnull''

/-- C5: the heap identifies object references with plain numbers.  Every
store of a number n naming a live object — through `setField`,
`createObject` initial fields, `createArray` elements or `arrayPush` —
records a back-edge (holder, field) in n's reverse index exactly as a
genuine reference would, and a later `deleteObjectCascade` of n nulls
that numeric field in a surviving holder and deletes the holder when its
schema marks the field mandatory. -/
theorem numeric_ids_as_references (h : Heap) :
    (∀ p f n m parent, lookupA h.objects p = some parent → h.isLive n = true →
      (p, f) ∈ (h.setField p f (Value.vnum n) m).incomingOf n) ∧
    (∀ tn init f n, (f, Value.vnum n) ∈ buildFields [] init → h.isLive n = true →
      (h.nextId, f) ∈ (h.createObject tn init).2.incomingOf n) ∧
    (∀ elems j n, elems.get? j = some (Value.vnum n) → h.isLive n = true →
      (h.nextId, toString j) ∈ (h.createArray elems).2.incomingOf n) ∧
    (∀ id o len n, lookupA h.objects id = some o → o.typeName = some "__array__" →
      lookupA o.fields "length" = some (Value.vnum len) → h.isLive n = true →
      (id, toString len) ∈ (h.arrayPush id (Value.vnum n)).incomingOf n) ∧
    (∀ holder n f ho, lookupA h.objects holder = some ho → h.isLive n = true →
      (holder, f) ∈ h.incomingOf n →
      (h.isFieldMandatory (h.typeNameOf holder) f = true →
        (h.deleteObjectCascade n).isLive holder = false) ∧
      ((h.deleteObjectCascade n).isLive holder = false ∨
        (h.deleteObjectCascade n).getField holder f = some Value.vnull)) := by
  refine ⟨?_, ?_, ?_, ?_, ?_⟩
  · intro p f n m parent hp hlive
    exact setField_tracks h p f n m parent hp hlive
  · intro tn init f n hmem hlive
    exact createObject_tracks h tn init f n hmem hlive
  · intro elems j n hj hlive
    exact createArray_tracks h elems j n hj hlive
  · intro id o len n ho htn hlen hlive
    exact arrayPush_tracks h id o len n ho htn hlen hlive
  · intro holder n f ho hho hlive hedge
    constructor
    · intro hmand
      have := cascade_mandatory_parent_dead h holder n f ho hho hlive hedge hmand
      rw [Heap.isLive, this]
      rfl
    · rcases cascade_parent_field_nulled h holder n f (isLive_of_lookup hho) hlive hedge with
        hd | hnull
      · left
        rw [Heap.isLive, hd]
        rfl
      · exact Or.inr hnull

/-! ### Cascade isolation -/

theorem mandReach_mono (h h' : Heap) (a x : Nat)
    (hinc : ∀ c e, e ∈ h'.incomingOf c → e ∈ h.incomingOf c)
    (htypes : h'.types = h.types) (htn : ∀ p, h'.typeNameOf p = h.typeNameOf p)
    (hr : MandReach h' a x) : MandReach h a x := by
  induction hr with
  | refl => exact MandReach.refl
  | step c p f hc hedge hmand ih =>
    refine MandReach.step c p f ih (hinc c (p, f) hedge) ?_
    rw [← isFieldMandatory_congr htypes, ← htn p]
    exact hmand

theorem cascadeStep_isolation (h0 : Heap) (a b : Nat) (hbr : ¬ MandReach h0 a b)
    (st : CascadeState)
    (hP : (∀ x ∈ st.stack, MandReach h0 a x) ∧
      (∀ c e, e ∈ st.heap.incomingOf c → e ∈ h0.incomingOf c) ∧
      st.heap.types = h0.types ∧
      (∀ p o', lookupA st.heap.objects p = some o' → o'.typeName = h0.typeNameOf p) ∧
      st.heap.isLive b = true) :
    (∀ x ∈ (cascadeStep st).stack, MandReach h0 a x) ∧
      (∀ c e, e ∈ (cascadeStep st).heap.incomingOf c → e ∈ h0.incomingOf c) ∧
      (cascadeStep st).heap.types = h0.types ∧
      (∀ p o', lookupA (cascadeStep st).heap.objects p = some o' →
        o'.typeName = h0.typeNameOf p) ∧
      (cascadeStep st).heap.isLive b = true := by
  obtain ⟨hreach, hsub, htypes, hts, hblive⟩ := hP
  cases hstack : st.stack with
  | nil =>
    rw [cascadeStep_empty st hstack]
    exact ⟨hreach, hsub, htypes, hts, hblive⟩
  | cons cur rest =>
    by_cases hv : cur ∈ st.visited
    · rw [cascadeStep_visited st cur rest hstack hv]
      refine ⟨?_, hsub, htypes, hts, hblive⟩
      intro x hx
      exact hreach x (hstack ▸ List.mem_cons_of_mem _ hx)
    · cases ho : lookupA st.heap.objects cur with
      | none =>
        rw [cascadeStep_dead st cur rest hstack hv ho]
        refine ⟨?_, hsub, htypes, hts, hblive⟩
        intro x hx
        exact hreach x (hstack ▸ List.mem_cons_of_mem _ hx)
      | some o =>
        have hcurlive : (lookupA (processIncoming (st.heap.incomingOf cur) st.heap []).1.objects
            cur).isSome = true := by
          rw [isSome_lookupA_eq_of_keys (processIncoming_keys _ _ _) cur, ho]
          rfl
        obtain ⟨o2, ho2⟩ := Option.isSome_iff_exists.mp hcurlive
        rw [cascadeStep_live st cur rest o o2 hstack hv ho ho2]
        have hcurreach : MandReach h0 a cur := hreach cur (hstack ▸ List.mem_cons_self _ _)
        have hbcur : b ≠ cur := fun he => hbr (he ▸ hcurreach)
        have htscur : ∀ p o', lookupA (processIncoming (st.heap.incomingOf cur) st.heap
            []).1.objects p = some o' → o'.typeName = h0.typeNameOf p := by
          intro p o' hp
          have h1 : (processIncoming (st.heap.incomingOf cur) st.heap []).1.typeNameOf p
              = o'.typeName := typeNameOf_of_lookup hp
          have h2 : (processIncoming (st.heap.incomingOf cur) st.heap []).1.typeNameOf p
              = st.heap.typeNameOf p := processIncoming_typeNameOf _ _ _ _
          have h3 : (lookupA st.heap.objects p).isSome = true := by
            rw [← isSome_lookupA_eq_of_keys (processIncoming_keys (st.heap.incomingOf cur)
              st.heap []) p]
            rw [hp]
            rfl
          obtain ⟨o1, ho1⟩ := Option.isSome_iff_exists.mp h3
          have h4 : st.heap.typeNameOf p = o1.typeName := typeNameOf_of_lookup ho1
          rw [← h1, h2, h4]
          exact hts p o1 ho1
        refine ⟨?_, ?_, ?_, ?_, ?_⟩
        · intro x hx
          rcases List.mem_append.mp hx with hx1 | hx1
          · rcases processIncoming_pushed_char _ _ _ x hx1 with hx2 | ⟨f, hfL, hlivex, hmandx⟩
            · simp at hx2
            · obtain ⟨ox, hox⟩ := lookup_of_isLive hlivex
              refine MandReach.step cur x f hcurreach (hsub cur (x, f) hfL) ?_
              have h5 : st.heap.typeNameOf x = ox.typeName := typeNameOf_of_lookup hox
              rw [← hts x ox hox, ← h5, ← isFieldMandatory_congr htypes]
              exact hmandx
          · exact hreach x (hstack ▸ List.mem_cons_of_mem _ hx1)
        · intro c e he
          dsimp only at he
          by_cases hc : c = cur
          · subst hc
            rw [Heap.incomingOf] at he
            dsimp only at he
            rw [lookupA_eraseA_self] at he
            simp at he
          · have he2 : e ∈ (untrackOutgoing cur o2.fields
                (processIncoming (st.heap.incomingOf cur) st.heap []).1).incomingOf c := by
              rw [Heap.incomingOf] at he ⊢
              dsimp only at he
              rw [lookupA_eraseA_ne _ _ _ hc] at he
              exact he
            exact hsub c e (processIncoming_mem_incoming _ _ _ _ _
              (untrackOutgoing_mem_incoming _ _ _ _ _ he2))
        · dsimp only
          rw [untrackOutgoing_types, processIncoming_types]
          exact htypes
        · intro p o' hp
          dsimp only at hp
          by_cases hpc : p = cur
          · subst hpc
            rw [lookupA_eraseA_self] at hp
            cases hp
          · rw [lookupA_eraseA_ne _ _ _ hpc, untrackOutgoing_objects] at hp
            exact htscur p o' hp
        · rw [Heap.isLive]
          dsimp only
          rw [lookupA_eraseA_ne _ _ _ hbcur, untrackOutgoing_objects]
          rw [← Heap.isLive, processIncoming_isLive]
          exact hblive

theorem deleteObjectCascade_isolated (h : Heap) (a b : Nat) (hb : h.isLive b = true)
    (hbr : ¬ MandReach h a b) : (h.deleteObjectCascade a).isLive b = true := by
  rw [Heap.deleteObjectCascade]
  have hrun := runCascade_preserve (fun st => (∀ x ∈ st.stack, MandReach h a x) ∧
      (∀ c e, e ∈ st.heap.incomingOf c → e ∈ h.incomingOf c) ∧
      st.heap.types = h.types ∧
      (∀ p o', lookupA st.heap.objects p = some o' → o'.typeName = h.typeNameOf p) ∧
      st.heap.isLive b = true)
    (fun st hst => cascadeStep_isolation h a b hbr st hst) (h.cascadeFuel a) ⟨h, [a], []⟩ ?_
  · exact hrun.2.2.2.2
  · refine ⟨?_, fun c e he => he, rfl, ?_, hb⟩
    · intro x hx
      have : x = a := by simpa using hx
      subst this
      exact MandReach.refl
    · intro p o' hp
      exact (typeNameOf_of_lookup hp).symm

theorem untrack_mem_incoming (h : Heap) (v : Value) (pk : Nat × String) (e : Nat × String)
    (c : Nat) (he : e ∈ (h.untrackIncomingIfObject v pk).incomingOf c) : e ∈ h.incomingOf c := by
  rw [untrack_incomingOf] at he
  by_cases hc : v = Value.vnum c ∧ (lookupA h.objects c).isSome = true
  · rw [if_pos hc] at he
    exact mem_of_mem_removeFirst he
  · rw [if_neg hc] at he
    exact he

/-- C4: for two live objects a and b with b not reachable from a through
any chain of mandatory back-edges, deleting a — directly or through the
null-on-mandatory `setField` trigger — leaves b live. -/
theorem delete_cascade_isolation (h : Heap) (a b : Nat) (ha : h.isLive a = true)
    (hb : h.isLive b = true) (hbr : ¬ MandReach h a b) :
    (h.deleteObjectCascade a).isLive b = true ∧
    ∀ name, (h.setField a name Value.vnull true).isLive b = true := by
  constructor
  · exact deleteObjectCascade_isolated h a b hb hbr
  · intro name
    obtain ⟨parent, hparent⟩ := lookup_of_isLive ha
    rw [Heap.setField, hparent]
    dsimp only
    rw [if_pos ⟨rfl, rfl⟩]
    cases hpf : lookupA parent.fields name with
    | none => exact deleteObjectCascade_isolated h a b hb hbr
    | some prev =>
      apply deleteObjectCascade_isolated
      · rw [Heap.isLive, untrack_objects]
        exact hb
      · intro hr
        apply hbr
        apply mandReach_mono h (h.untrackIncomingIfObject prev (a, name)) a b
        · intro c e he
          exact untrack_mem_incoming h prev (a, name) e c he
        · exact untrack_types h prev (a, name)
        · intro p
          rw [Heap.typeNameOf, Heap.typeNameOf, untrack_objects]
        · exact hr

/-! ### Preservation of heap consistency during the cascade -/

theorem edgeSound_untrack (h : Heap) (v : Value) (pk : Nat × String) (hES : h.EdgeSound) :
    (h.untrackIncomingIfObject v pk).EdgeSound := by
  intro c p f he
  obtain ⟨o, ho, hf⟩ := hES c p f (untrack_mem_incoming h v pk (p, f) c he)
  refine ⟨o, ?_, hf⟩
  rw [untrack_objects]
  exact ho

theorem deadNoIncoming_untrack (h : Heap) (v : Value) (pk : Nat × String)
    (hDNI : h.DeadNoIncoming) : (h.untrackIncomingIfObject v pk).DeadNoIncoming := by
  intro c hdead
  rw [untrack_objects] at hdead
  have h0 := hDNI c hdead
  rw [untrack_incomingOf]
  by_cases hc : v = Value.vnum c ∧ (lookupA h.objects c).isSome = true
  · rw [if_pos hc, h0]
    rfl
  · rw [if_neg hc]
    exact h0

theorem incomingNodup_untrack (h : Heap) (v : Value) (pk : Nat × String)
    (hNI : h.IncomingNodup) : (h.untrackIncomingIfObject v pk).IncomingNodup := by
  intro c
  rw [untrack_incomingOf]
  by_cases hc : v = Value.vnum c ∧ (lookupA h.objects c).isSome = true
  · rw [if_pos hc]
    exact nodup_removeFirst _ (hNI c)
  · rw [if_neg hc]
    exact hNI c

theorem isSome_of_incoming_ne_nil (h : Heap) (c : Nat) (e : Nat × String)
    (hDNI : h.DeadNoIncoming) (he : e ∈ h.incomingOf c) :
    (lookupA h.objects c).isSome = true := by
  cases hcc : lookupA h.objects c with
  | some o => rfl
  | none =>
    rw [hDNI c hcc] at he
    simp at he

theorem stepHeap_edgeSound (h : Heap) (pid : Nat) (f : String) (parent : HeapObject)
    (hp : lookupA h.objects pid = some parent) (hES : h.EdgeSound) (hDNI : h.DeadNoIncoming)
    (hNI : h.IncomingNodup) : (stepHeap h pid f parent).EdgeSound := by
  intro c q g he
  have heh : (q, g) ∈ h.incomingOf c := by
    rw [stepHeap_incomingOf h pid f parent hp c] at he
    revert he
    cases lookupA parent.fields f with
    | none => exact id
    | some pv =>
      dsimp only
      by_cases hcnd : pv = Value.vnum c ∧ (lookupA h.objects c).isSome = true
      · rw [if_pos hcnd]
        exact mem_of_mem_removeFirst
      · rw [if_neg hcnd]
        exact id
  obtain ⟨oq, hoq, hfq⟩ := hES c q g heh
  by_cases hqp : q = pid
  · have hoq' : oq = parent := by
      rw [hqp, hp] at hoq
      exact (Option.some.inj hoq).symm
    by_cases hgf : g = f
    · have hfq' : lookupA parent.fields f = some (Value.vnum c) := by
        rw [← hgf, ← hoq']
        exact hfq
      have hclive : (lookupA h.objects c).isSome = true :=
        isSome_of_incoming_ne_nil h c (q, g) hDNI heh
      rw [stepHeap_incomingOf h pid f parent hp c, hfq'] at he
      dsimp only at he
      rw [if_pos ⟨rfl, hclive⟩] at he
      rw [hqp, hgf] at he
      exact absurd he (not_mem_removeFirst_self (hNI c))
    · refine ⟨{ parent with fields := setAssoc parent.fields f Value.vnull }, ?_, ?_⟩
      · rw [hqp]
        exact stepHeap_lookup_self h pid f parent
      · dsimp only
        rw [lookupA_setAssoc_ne _ _ _ _ hgf, ← hoq']
        exact hfq
  · refine ⟨oq, ?_, hfq⟩
    rw [stepHeap_lookup_ne h pid f parent q hqp]
    exact hoq

theorem stepHeap_deadNoIncoming (h : Heap) (pid : Nat) (f : String) (parent : HeapObject)
    (hp : lookupA h.objects pid = some parent) (hDNI : h.DeadNoIncoming) :
    (stepHeap h pid f parent).DeadNoIncoming := by
  intro c hdead
  have hdeadh : lookupA h.objects c = none :=
    lookup_none_of_keys_eq (stepHeap_keys h pid f parent hp) hdead
  have h0 := hDNI c hdeadh
  rw [stepHeap_incomingOf h pid f parent hp c]
  cases lookupA parent.fields f with
  | none => exact h0
  | some pv =>
    dsimp only
    have hcnd : ¬ (pv = Value.vnum c ∧ (lookupA h.objects c).isSome = true) := by
      intro hcc
      rw [hdeadh] at hcc
      cases hcc.2
    rw [if_neg hcnd]
    exact h0

theorem stepHeap_incomingNodup (h : Heap) (pid : Nat) (f : String) (parent : HeapObject)
    (hp : lookupA h.objects pid = some parent) (hNI : h.IncomingNodup) :
    (stepHeap h pid f parent).IncomingNodup := by
  intro c
  rw [stepHeap_incomingOf h pid f parent hp c]
  cases lookupA parent.fields f with
  | none => exact hNI c
  | some pv =>
    dsimp only
    by_cases hcnd : pv = Value.vnum c ∧ (lookupA h.objects c).isSome = true
    · rw [if_pos hcnd]
      exact nodup_removeFirst _ (hNI c)
    · rw [if_neg hcnd]
      exact hNI c

theorem stepHeap_fieldsNodup (h : Heap) (pid : Nat) (f : String) (parent : HeapObject)
    (hp : lookupA h.objects pid = some parent) (hFN : h.FieldsNodup) :
    (stepHeap h pid f parent).FieldsNodup := by
  intro id o' ho'
  by_cases hip : id = pid
  · subst hip
    rw [stepHeap_lookup_self] at ho'
    have : o' = { parent with fields := setAssoc parent.fields f Value.vnull } :=
      (Option.some.inj ho').symm
    subst this
    dsimp only
    exact nodupkeys_setAssoc f Value.vnull (hFN id parent hp)
  · rw [stepHeap_lookup_ne h pid f parent id hip] at ho'
    exact hFN id o' ho'

theorem stepHeap_consistent (h : Heap) (pid : Nat) (f : String) (parent : HeapObject)
    (hp : lookupA h.objects pid = some parent) (hC : h.Consistent) :
    (stepHeap h pid f parent).Consistent := by
  obtain ⟨hES, hDNI, hNI, hFN⟩ := hC
  exact ⟨stepHeap_edgeSound h pid f parent hp hES hDNI hNI,
    stepHeap_deadNoIncoming h pid f parent hp hDNI,
    stepHeap_incomingNodup h pid f parent hp hNI,
    stepHeap_fieldsNodup h pid f parent hp hFN⟩

theorem processIncoming_consistent (L : List (Nat × String)) (h : Heap) (acc : List Nat)
    (hC : h.Consistent) : (processIncoming L h acc).1.Consistent := by
  induction L generalizing h acc with
  | nil => exact hC
  | cons e rest ih =>
    obtain ⟨pid, g⟩ := e
    cases hp : lookupA h.objects pid with
    | none =>
      rw [processIncoming_cons_dead pid g rest h acc hp]
      exact ih h acc hC
    | some parent =>
      rw [processIncoming_cons_live pid g rest h acc parent hp]
      exact ih _ _ (stepHeap_consistent h pid g parent hp hC)

theorem fieldsNodup_untrack (h : Heap) (v : Value) (pk : Nat × String)
    (hFN : h.FieldsNodup) : (h.untrackIncomingIfObject v pk).FieldsNodup := by
  intro id o ho
  rw [untrack_objects] at ho
  exact hFN id o ho

theorem untrackOutgoing_consistent (cur : Nat) (L : List (String × Value)) (h : Heap)
    (hC : h.Consistent) : (untrackOutgoing cur L h).Consistent := by
  induction L generalizing h with
  | nil => exact hC
  | cons kv rest ih =>
    obtain ⟨k, v⟩ := kv
    rw [untrackOutgoing]
    apply ih
    obtain ⟨hES, hDNI, hNI, hFN⟩ := hC
    exact ⟨edgeSound_untrack h v (cur, k) hES, deadNoIncoming_untrack h v (cur, k) hDNI,
      incomingNodup_untrack h v (cur, k) hNI, fieldsNodup_untrack h v (cur, k) hFN⟩

theorem untrackOutgoing_aux (cur : Nat) (o : HeapObject) :
    ∀ (L : List (String × Value)) (h : Heap), h.EdgeSound → h.DeadNoIncoming →
    h.IncomingNodup → lookupA h.objects cur = some o →
    (∀ kv ∈ L, lookupA o.fields kv.1 = some kv.2) →
    ∀ c k, (cur, k) ∈ (untrackOutgoing cur L h).incomingOf c →
      (cur, k) ∈ h.incomingOf c ∧ ∀ v, (k, v) ∉ L := by
  intro L
  induction L with
  | nil =>
    intro h _ _ _ _ _ c k he
    exact ⟨he, by simp⟩
  | cons kv rest ih =>
    obtain ⟨kz, vz⟩ := kv
    intro h hES hDNI hNI ho hagree c k he
    rw [untrackOutgoing] at he
    have hES1 := edgeSound_untrack h vz (cur, kz) hES
    have hDNI1 := deadNoIncoming_untrack h vz (cur, kz) hDNI
    have hNI1 := incomingNodup_untrack h vz (cur, kz) hNI
    have ho1 : lookupA (h.untrackIncomingIfObject vz (cur, kz)).objects cur = some o := by
      rw [untrack_objects]
      exact ho
    have hagree1 : ∀ kv ∈ rest, lookupA o.fields kv.1 = some kv.2 :=
      fun kv hm => hagree kv (List.mem_cons_of_mem _ hm)
    obtain ⟨hmem1, hnot1⟩ := ih _ hES1 hDNI1 hNI1 ho1 hagree1 c k he
    have hmem0 : (cur, k) ∈ h.incomingOf c :=
      untrack_mem_incoming h vz (cur, kz) _ c hmem1
    refine ⟨hmem0, ?_⟩
    intro v hv
    rcases List.mem_cons.mp hv with hv1 | hv1
    · have hk : k = kz := congrArg Prod.fst hv1
      have hag := hagree (kz, vz) (List.mem_cons_self _ _)
      obtain ⟨o', ho', hf'⟩ := hES c cur k hmem0
      have hoo : o' = o := by
        rw [ho] at ho'
        exact (Option.some.inj ho').symm
      have hvz : vz = Value.vnum c := by
        have hereq : lookupA o.fields kz = some (Value.vnum c) := by
          rw [← hk, ← hoo]
          exact hf'
        rw [hag] at hereq
        exact Option.some.inj hereq
      have hclive := isSome_of_incoming_ne_nil h c (cur, k) hDNI hmem0
      have hgone : (cur, kz) ∉ (h.untrackIncomingIfObject vz (cur, kz)).incomingOf c := by
        rw [untrack_incomingOf, hvz]
        rw [if_pos ⟨rfl, hclive⟩]
        exact not_mem_removeFirst_self (hNI c)
      rw [hk] at hmem1
      exact hgone hmem1
    · exact hnot1 v hv1

theorem untrackOutgoing_clears (h : Heap) (cur : Nat) (o : HeapObject) (hC : h.Consistent)
    (ho : lookupA h.objects cur = some o) :
    ∀ c k, (cur, k) ∉ (untrackOutgoing cur o.fields h).incomingOf c := by
  obtain ⟨hES, hDNI, hNI, hFN⟩ := hC
  intro c k hmem
  have hagree : ∀ kv ∈ o.fields, lookupA o.fields kv.1 = some kv.2 := by
    intro kv hm
    obtain ⟨a, b⟩ := kv
    exact lookupA_of_nodupkeys_mem (hFN cur o ho) hm
  obtain ⟨hmem0, hnone⟩ := untrackOutgoing_aux cur o o.fields h hES hDNI hNI ho hagree c k hmem
  obtain ⟨o', ho', hf'⟩ := hES c cur k hmem0
  have hoo : o' = o := by
    rw [ho] at ho'
    exact (Option.some.inj ho').symm
  have hfield : (k, Value.vnum c) ∈ o.fields := by
    apply lookupA_some_mem
    rw [← hoo]
    exact hf'
  exact hnone (Value.vnum c) hfield

theorem cascadeStep_consistent (st : CascadeState) (hC : st.heap.Consistent) :
    (cascadeStep st).heap.Consistent := by
  cases hstack : st.stack with
  | nil =>
    rw [cascadeStep_empty st hstack]
    exact hC
  | cons cur rest =>
    by_cases hv : cur ∈ st.visited
    · rw [cascadeStep_visited st cur rest hstack hv]
      exact hC
    · cases ho : lookupA st.heap.objects cur with
      | none =>
        rw [cascadeStep_dead st cur rest hstack hv ho]
        exact hC
      | some o =>
        have hcurlive : (lookupA (processIncoming (st.heap.incomingOf cur) st.heap []).1.objects
            cur).isSome = true := by
          rw [isSome_lookupA_eq_of_keys (processIncoming_keys _ _ _) cur, ho]
          rfl
        obtain ⟨o2, ho2⟩ := Option.isSome_iff_exists.mp hcurlive
        rw [cascadeStep_live st cur rest o o2 hstack hv ho ho2]
        have hC2 := processIncoming_consistent (st.heap.incomingOf cur) st.heap [] hC
        have hC3 := untrackOutgoing_consistent cur o2.fields _ hC2
        have hclears := untrackOutgoing_clears _ cur o2 hC2 ho2
        obtain ⟨hES3, hDNI3, hNI3, hFN3⟩ := hC3
        set h3 := untrackOutgoing cur o2.fields
          (processIncoming (st.heap.incomingOf cur) st.heap []).1 with hh3
        have hinc4 : ∀ x, ({ h3 with incoming := eraseA h3.incoming cur, objects := eraseA h3.objects cur } : Heap).incomingOf x = if x = cur then [] else h3.incomingOf x := by
          intro x
          by_cases hx : x = cur
          · subst hx
            rw [if_pos rfl, Heap.incomingOf]
            dsimp only
            rw [lookupA_eraseA_self]
            rfl
          · rw [if_neg hx, Heap.incomingOf, Heap.incomingOf]
            dsimp only
            rw [lookupA_eraseA_ne _ _ _ hx]
        have hobj4 : ∀ x, lookupA ({ h3 with incoming := eraseA h3.incoming cur, objects := eraseA h3.objects cur } : Heap).objects x = if x = cur then none else lookupA h3.objects x := by
          intro x
          by_cases hx : x = cur
          · subst hx
            rw [if_pos rfl]
            exact lookupA_eraseA_self _ _
          · rw [if_neg hx]
            exact lookupA_eraseA_ne _ _ _ hx
        refine ⟨?_, ?_, ?_, ?_⟩
        · intro c q g he
          rw [hinc4] at he
          by_cases hc : c = cur
          · rw [if_pos hc] at he
            simp at he
          · rw [if_neg hc] at he
            by_cases hq : q = cur
            · rw [hq] at he
              exact absurd he (hclears c g)
            · obtain ⟨oq, hoq, hfq⟩ := hES3 c q g he
              refine ⟨oq, ?_, hfq⟩
              rw [hobj4, if_neg hq]
              exact hoq
        · intro c hdead
          rw [hinc4]
          by_cases hc : c = cur
          · rw [if_pos hc]
          · rw [if_neg hc]
            apply hDNI3
            rw [hobj4, if_neg hc] at hdead
            exact hdead
        · intro c
          rw [hinc4]
          by_cases hc : c = cur
          · rw [if_pos hc]
            exact List.nodup_nil
          · rw [if_neg hc]
            exact hNI3 c
        · intro id oid hoid
          rw [hobj4] at hoid
          by_cases hid : id = cur
          · rw [if_pos hid] at hoid
            cases hoid
          · rw [if_neg hid] at hoid
            exact hFN3 id oid hoid

theorem cascadeStep_types (st : CascadeState) :
    (cascadeStep st).heap.types = st.heap.types := by
  cases hstack : st.stack with
  | nil => rw [cascadeStep_empty st hstack]
  | cons cur rest =>
    by_cases hv : cur ∈ st.visited
    · rw [cascadeStep_visited st cur rest hstack hv]
    · cases ho : lookupA st.heap.objects cur with
      | none => rw [cascadeStep_dead st cur rest hstack hv ho]
      | some o =>
        have hcurlive : (lookupA (processIncoming (st.heap.incomingOf cur) st.heap []).1.objects
            cur).isSome = true := by
          rw [isSome_lookupA_eq_of_keys (processIncoming_keys _ _ _) cur, ho]
          rfl
        obtain ⟨o2, ho2⟩ := Option.isSome_iff_exists.mp hcurlive
        rw [cascadeStep_live st cur rest o o2 hstack hv ho ho2]
        dsimp only
        rw [untrackOutgoing_types, processIncoming_types]

theorem cascadeStep_typeStable (st : CascadeState) (p : Nat) (o' : HeapObject)
    (hp : lookupA (cascadeStep st).heap.objects p = some o') :
    ∃ o1, lookupA st.heap.objects p = some o1 ∧ o'.typeName = o1.typeName := by
  cases hstack : st.stack with
  | nil =>
    rw [cascadeStep_empty st hstack] at hp
    exact ⟨o', hp, rfl⟩
  | cons cur rest =>
    by_cases hv : cur ∈ st.visited
    · rw [cascadeStep_visited st cur rest hstack hv] at hp
      exact ⟨o', hp, rfl⟩
    · cases ho : lookupA st.heap.objects cur with
      | none =>
        rw [cascadeStep_dead st cur rest hstack hv ho] at hp
        exact ⟨o', hp, rfl⟩
      | some o =>
        have hcurlive : (lookupA (processIncoming (st.heap.incomingOf cur) st.heap []).1.objects
            cur).isSome = true := by
          rw [isSome_lookupA_eq_of_keys (processIncoming_keys _ _ _) cur, ho]
          rfl
        obtain ⟨o2, ho2⟩ := Option.isSome_iff_exists.mp hcurlive
        rw [cascadeStep_live st cur rest o o2 hstack hv ho ho2] at hp
        dsimp only at hp
        by_cases hpc : p = cur
        · rw [hpc, lookupA_eraseA_self] at hp
          cases hp
        · rw [lookupA_eraseA_ne _ _ _ hpc, untrackOutgoing_objects] at hp
          have h3 : (lookupA st.heap.objects p).isSome = true := by
            rw [← isSome_lookupA_eq_of_keys (processIncoming_keys (st.heap.incomingOf cur)
              st.heap []) p, hp]
            rfl
          obtain ⟨o1, ho1⟩ := Option.isSome_iff_exists.mp h3
          refine ⟨o1, ho1, ?_⟩
          have e1 : (processIncoming (st.heap.incomingOf cur) st.heap []).1.typeNameOf p
              = o'.typeName := typeNameOf_of_lookup hp
          have e2 : (processIncoming (st.heap.incomingOf cur) st.heap []).1.typeNameOf p
              = st.heap.typeNameOf p := processIncoming_typeNameOf _ _ _ _
          have e3 : st.heap.typeNameOf p = o1.typeName := typeNameOf_of_lookup ho1
          rw [← e1, e2, e3]

/-! ### Total destruction of mandatory cycles -/

theorem cycNode_mod (l : List (Nat × String)) (t : Nat) :
    cycNode l (t % l.length) = cycNode l t := by
  rw [cycNode, cycNode, Nat.mod_mod_of_dvd t (dvd_refl l.length)]

theorem cycField_mod (l : List (Nat × String)) (t : Nat) :
    cycField l (t % l.length) = cycField l t := by
  rw [cycField, cycField, Nat.mod_mod_of_dvd t (dvd_refl l.length)]

theorem cycNode_succ_mod (l : List (Nat × String)) (t : Nat) :
    cycNode l (t % l.length + 1) = cycNode l (t + 1) := by
  rw [cycNode, cycNode]
  have he : (t % l.length + 1) % l.length = (t + 1) % l.length := by
    conv_lhs => rw [Nat.add_mod]
    conv_rhs => rw [Nat.add_mod]
    rw [Nat.mod_mod_of_dvd t (dvd_refl l.length)]
  rw [he]

theorem cycleOk_all (h : Heap) (l : List (Nat × String)) (hc : h.CycleOk l) (t : Nat) :
    (lookupA h.objects (cycNode l t)).isSome = true ∧
    h.getField (cycNode l t) (cycField l t) = some (Value.vnum (cycNode l (t + 1))) ∧
    (cycNode l t, cycField l t) ∈ h.incomingOf (cycNode l (t + 1)) ∧
    h.isFieldMandatory (h.typeNameOf (cycNode l t)) (cycField l t) = true := by
  obtain ⟨hne, hall⟩ := hc
  have hpos : 0 < l.length := List.length_pos.mpr hne
  have ht := hall (t % l.length) (Nat.mod_lt _ hpos)
  rw [cycNode_succ_mod, cycNode_mod, cycField_mod] at ht
  exact ht

theorem cascadeStep_cycleInv (h0 : Heap) (l : List (Nat × String))
    (hm : ∀ t, h0.isFieldMandatory (h0.typeNameOf (cycNode l t)) (cycField l t) = true)
    (st : CascadeState)
    (hQ : st.heap.Consistent ∧ VisitedDead st ∧ st.heap.types = h0.types ∧
      (∀ p o', lookupA st.heap.objects p = some o' → o'.typeName = h0.typeNameOf p) ∧
      (∀ t, lookupA st.heap.objects (cycNode l t) = none ∨ cycNode l t ∈ st.stack ∨
        (cycNode l t, cycField l t) ∈ st.heap.incomingOf (cycNode l (t + 1)))) :
    (cascadeStep st).heap.Consistent ∧ VisitedDead (cascadeStep st) ∧
      (cascadeStep st).heap.types = h0.types ∧
      (∀ p o', lookupA (cascadeStep st).heap.objects p = some o' →
        o'.typeName = h0.typeNameOf p) ∧
      (∀ t, lookupA (cascadeStep st).heap.objects (cycNode l t) = none ∨
        cycNode l t ∈ (cascadeStep st).stack ∨
        (cycNode l t, cycField l t) ∈
          (cascadeStep st).heap.incomingOf (cycNode l (t + 1))) := by
  obtain ⟨hC, hVD, htypes, hTS, hI4⟩ := hQ
  refine ⟨cascadeStep_consistent st hC, cascadeStep_visitedDead st hVD, ?_, ?_, ?_⟩
  · rw [cascadeStep_types]
    exact htypes
  · intro p o' hp
    obtain ⟨o1, ho1, he⟩ := cascadeStep_typeStable st p o' hp
    rw [he]
    exact hTS p o1 ho1
  · intro t
    cases hstack : st.stack with
    | nil =>
      rw [cascadeStep_empty st hstack]
      rcases hI4 t with hd | hs | hedge
      · exact Or.inl hd
      · exact Or.inr (Or.inl hs)
      · exact Or.inr (Or.inr hedge)
    | cons cur rest =>
      by_cases hv : cur ∈ st.visited
      · rw [cascadeStep_visited st cur rest hstack hv]
        rcases hI4 t with hd | hs | hedge
        · exact Or.inl hd
        · rw [hstack] at hs
          rcases List.mem_cons.mp hs with h1 | h1
          · exact Or.inl (h1 ▸ hVD cur hv)
          · exact Or.inr (Or.inl h1)
        · exact Or.inr (Or.inr hedge)
      · cases ho : lookupA st.heap.objects cur with
        | none =>
          rw [cascadeStep_dead st cur rest hstack hv ho]
          rcases hI4 t with hd | hs | hedge
          · exact Or.inl hd
          · rw [hstack] at hs
            rcases List.mem_cons.mp hs with h1 | h1
            · exact Or.inl (h1 ▸ ho)
            · exact Or.inr (Or.inl h1)
          · exact Or.inr (Or.inr hedge)
        | some o =>
          have hcurlive : (lookupA (processIncoming (st.heap.incomingOf cur) st.heap
              []).1.objects cur).isSome = true := by
            rw [isSome_lookupA_eq_of_keys (processIncoming_keys _ _ _) cur, ho]
            rfl
          obtain ⟨o2, ho2⟩ := Option.isSome_iff_exists.mp hcurlive
          rw [cascadeStep_live st cur rest o o2 hstack hv ho ho2]
          set h3 := untrackOutgoing cur o2.fields
            (processIncoming (st.heap.incomingOf cur) st.heap []).1 with hh3
          have hobj4 : ∀ x, lookupA ({ h3 with incoming := eraseA h3.incoming cur, objects := eraseA h3.objects cur } : Heap).objects x = if x = cur then none else lookupA h3.objects x := by
            intro x
            by_cases hx : x = cur
            · subst hx
              rw [if_pos rfl]
              exact lookupA_eraseA_self _ _
            · rw [if_neg hx]
              exact lookupA_eraseA_ne _ _ _ hx
          have hinc4 : ∀ x, ({ h3 with incoming := eraseA h3.incoming cur, objects := eraseA h3.objects cur } : Heap).incomingOf x = if x = cur then [] else h3.incomingOf x := by
            intro x
            by_cases hx : x = cur
            · subst hx
              rw [if_pos rfl, Heap.incomingOf]
              dsimp only
              rw [lookupA_eraseA_self]
              rfl
            · rw [if_neg hx, Heap.incomingOf, Heap.incomingOf]
              dsimp only
              rw [lookupA_eraseA_ne _ _ _ hx]
          have hdead4 : ∀ x, lookupA st.heap.objects x = none →
              lookupA ({ h3 with incoming := eraseA h3.incoming cur, objects := eraseA h3.objects cur } : Heap).objects x = none := by
            intro x hx
            rw [hobj4]
            by_cases hxc : x = cur
            · rw [if_pos hxc]
            · rw [if_neg hxc, hh3, untrackOutgoing_objects]
              exact processIncoming_lookup_none _ _ _ _ hx
          by_cases hntcur : cycNode l t = cur
          · refine Or.inl ?_
            rw [hobj4, if_pos hntcur]
          · rcases hI4 t with hd | hs | hedge
            · exact Or.inl (hdead4 _ hd)
            · rw [hstack] at hs
              rcases List.mem_cons.mp hs with h1 | h1
              · exact absurd h1 hntcur
              · exact Or.inr (Or.inl (List.mem_append_right _ h1))
            · by_cases hn1cur : cycNode l (t + 1) = cur
              · cases hlv : lookupA st.heap.objects (cycNode l t) with
                | none => exact Or.inl (hdead4 _ hlv)
                | some ont =>
                  refine Or.inr (Or.inl (List.mem_append_left _ ?_))
                  apply processIncoming_pushes _ _ _ (cycNode l t) (cycField l t)
                  · rw [← hn1cur]
                    exact hedge
                  · rw [Heap.isLive, hlv]
                    rfl
                  · have e1 : st.heap.typeNameOf (cycNode l t) = ont.typeName :=
                      typeNameOf_of_lookup hlv
                    have e2 : ont.typeName = h0.typeNameOf (cycNode l t) := hTS _ ont hlv
                    rw [isFieldMandatory_congr htypes, e1, e2]
                    exact hm t
              · refine Or.inr (Or.inr ?_)
                have hnotL : (cycNode l t, cycField l t) ∉ st.heap.incomingOf cur := by
                  intro hmem2
                  obtain ⟨oA, hoA, hfA⟩ := hC.1 cur (cycNode l t) (cycField l t) hmem2
                  obtain ⟨oB, hoB, hfB⟩ := hC.1 (cycNode l (t + 1)) (cycNode l t)
                    (cycField l t) hedge
                  have hAB : oA = oB := by
                    rw [hoA] at hoB
                    exact Option.some.inj hoB
                  rw [hAB, hfB] at hfA
                  exact hn1cur (Value.vnum.inj (Option.some.inj hfA))
                have step1 : (cycNode l t, cycField l t) ∈ (processIncoming
                    (st.heap.incomingOf cur) st.heap []).1.incomingOf (cycNode l (t + 1)) :=
                  processIncoming_mem_incoming_of_not_mem _ _ _ _ _ hnotL hedge
                have step2 : (cycNode l t, cycField l t) ∈ h3.incomingOf (cycNode l (t + 1)) :=
                  untrackOutgoing_mem_incoming_of_parent_ne cur o2.fields _ _ _ hntcur step1
                rw [hinc4, if_neg hn1cur]
                exact step2

/-- C3: in a heap state satisfying the source's reverse-index invariants,
a cycle of live objects whose linking fields are all mandatory for their
holders is destroyed in its entirety by `deleteObjectCascade` on any of
its nodes. -/
theorem mandatory_cycle_total_destruction (h : Heap) (l : List (Nat × String)) (a : Nat)
    (fa : String) (hC : h.Consistent) (hcy : h.CycleOk l) (hmem : (a, fa) ∈ l) :
    ∀ pf ∈ l, lookupA (h.deleteObjectCascade a).objects pf.1 = none := by
  have hpos : 0 < l.length := List.length_pos.mpr hcy.1
  have hAll := cycleOk_all h l hcy
  have hm : ∀ t, h.isFieldMandatory (h.typeNameOf (cycNode l t)) (cycField l t) = true :=
    fun t => (hAll t).2.2.2
  set F := runCascade (h.cascadeFuel a) ⟨h, [a], []⟩ with hF
  have hQ0 : (⟨h, [a], []⟩ : CascadeState).heap.Consistent ∧
      VisitedDead ⟨h, [a], []⟩ ∧ (⟨h, [a], []⟩ : CascadeState).heap.types = h.types ∧
      (∀ p o', lookupA (⟨h, [a], []⟩ : CascadeState).heap.objects p = some o' →
        o'.typeName = h.typeNameOf p) ∧
      (∀ t, lookupA (⟨h, [a], []⟩ : CascadeState).heap.objects (cycNode l t) = none ∨
        cycNode l t ∈ (⟨h, [a], []⟩ : CascadeState).stack ∨
        (cycNode l t, cycField l t) ∈
          (⟨h, [a], []⟩ : CascadeState).heap.incomingOf (cycNode l (t + 1))) := by
    refine ⟨hC, visitedDead_init h a, rfl, ?_, ?_⟩
    · intro p o' hp
      exact (typeNameOf_of_lookup hp).symm
    · intro t
      exact Or.inr (Or.inr (hAll t).2.2.1)
  have hQF := runCascade_preserve (fun st => st.heap.Consistent ∧ VisitedDead st ∧
      st.heap.types = h.types ∧
      (∀ p o', lookupA st.heap.objects p = some o' → o'.typeName = h.typeNameOf p) ∧
      (∀ t, lookupA st.heap.objects (cycNode l t) = none ∨ cycNode l t ∈ st.stack ∨
        (cycNode l t, cycField l t) ∈ st.heap.incomingOf (cycNode l (t + 1))))
    (fun st hst => cascadeStep_cycleInv h l hm st hst) (h.cascadeFuel a) ⟨h, [a], []⟩ hQ0
  rw [← hF] at hQF
  obtain ⟨hCF, hVDF, htypesF, hTSF, hI4F⟩ := hQF
  have hFstack : F.stack = [] := by
    rw [hF]
    exact runCascade_terminates (h.cascadeFuel a) ⟨h, [a], []⟩ (Nat.le_refl _)
  have hseed : lookupA F.heap.objects a = none := by
    rw [hF]
    exact runCascade_stack_dead (h.cascadeFuel a) ⟨h, [a], []⟩ a (visitedDead_init h a)
      (Nat.le_refl _) (Or.inl (List.mem_cons_self _ _))
  obtain ⟨⟨i, hi⟩, hgeti⟩ := List.mem_iff_get.mp hmem
  have hcycA : cycNode l i = a := by
    rw [cycNode, Nat.mod_eq_of_lt hi, List.getD_eq_get l (0, "") hi, hgeti]
  have hstepLive : ∀ t, (lookupA F.heap.objects (cycNode l t)).isSome = true →
      (lookupA F.heap.objects (cycNode l (t + 1))).isSome = true := by
    intro t hlv
    rcases hI4F t with hd | hs | hedge
    · rw [hd] at hlv
      cases hlv
    · rw [hFstack] at hs
      simp at hs
    · exact isSome_of_incoming_ne_nil F.heap _ _ hCF.2.1 hedge
  have hdeadAll : ∀ t, lookupA F.heap.objects (cycNode l t) = none := by
    intro t
    cases hlv : lookupA F.heap.objects (cycNode l t) with
    | none => rfl
    | some ox =>
      exfalso
      have hlvb : (lookupA F.heap.objects (cycNode l t)).isSome = true := by
        rw [hlv]
        rfl
      have hprop : ∀ s, (lookupA F.heap.objects (cycNode l (t + s))).isSome = true := by
        intro s
        induction s with
        | zero => simpa using hlvb
        | succ k ihk =>
          have h2 := hstepLive (t + k) ihk
          have harr : t + (k + 1) = (t + k) + 1 := rfl
          rw [harr]
          exact h2
      have hle : t ≤ t * l.length := Nat.le_mul_of_pos_right t hpos
      have harith : t + (i + t * l.length - t) = i + t * l.length := by omega
      have hper : cycNode l (i + t * l.length) = cycNode l i := by
        rw [cycNode, cycNode, Nat.add_mul_mod_self_right]
      have hfin := hprop (i + t * l.length - t)
      rw [harith, hper, hcycA, hseed] at hfin
      cases hfin
  intro pf hpf
  obtain ⟨⟨j, hj⟩, hgetj⟩ := List.mem_iff_get.mp hpf
  have hcycJ : cycNode l j = pf.1 := by
    rw [cycNode, Nat.mod_eq_of_lt hj, List.getD_eq_get l (0, "") hj, hgetj]
  have hgoal : lookupA F.heap.objects pf.1 = none := by
    rw [← hcycJ]
    exact hdeadAll j
  rw [Heap.deleteObjectCascade]
  exact hgoal

/-! ### The forward/reverse symmetry invariant fails on the code -/

/-- C1: a concrete violation of forward/reverse symmetry.  Storing the
number 2 in a field before identifier 2 is allocated and then allocating
it leaves the forward field `1.f` holding the identifier of a live
object while object 2's reverse index is empty; and writing a live
identifier into an array slot through the interpreter's index-assignment
path installs the forward reference without recording any back-edge. -/
theorem forward_reverse_symmetry_violated :
    (((Heap.empty.createObject none [("f", Value.vnum 2)]).2.createObject none []).2.getField
      1 "f" = some (Value.vnum 2) ∧
    ((Heap.empty.createObject none [("f", Value.vnum 2)]).2.createObject none []).2.isLive 2
      = true ∧
    ((Heap.empty.createObject none [("f", Value.vnum 2)]).2.createObject none []).2.incomingOf 2
      = []) ∧
    (((Heap.empty.createObject none []).2.createArray [Value.vnull]).2.indexAssign 2 0
      (Value.vnum 1) = some
      { nextId := 3,
        objects := [(1, ⟨none, []⟩),
          (2, ⟨some "__array__", [("0", Value.vnum 1), ("length", Value.vnum 1)]⟩)],
        types := [], incoming := [] } ∧
    (1 : Nat) ∈ (((Heap.empty.createObject none []).2.createArray
      [Value.vnull]).2.objects.map Prod.fst)) := by
  decide

/-- A decidable sufficient condition for `Heap.Consistent`, bounding the
quantifiers by the keys actually present in the maps. -/
theorem consistent_of_bounded (h : Heap)
    (hES : ∀ c ∈ h.incoming.map Prod.fst, ∀ pf ∈ h.incomingOf c,
      h.getField pf.1 pf.2 = some (Value.vnum c))
    (hDNI : ∀ c ∈ h.incoming.map Prod.fst,
      (lookupA h.objects c).isSome = true ∨ h.incomingOf c = [])
    (hNI : ∀ c ∈ h.incoming.map Prod.fst, (h.incomingOf c).Nodup)
    (hFN : ∀ e ∈ h.objects, ((e.2.fields.map Prod.fst)).Nodup) : h.Consistent := by
  have hkey : ∀ c : Nat, h.incomingOf c ≠ [] → c ∈ h.incoming.map Prod.fst := by
    intro c hc
    by_contra hmem
    rw [← lookupA_eq_none_iff] at hmem
    rw [Heap.incomingOf, hmem] at hc
    exact hc rfl
  refine ⟨?_, ?_, ?_, ?_⟩
  · intro c p f he
    have hne : h.incomingOf c ≠ [] := by
      intro hnil
      rw [hnil] at he
      simp at he
    have hg := hES c (hkey c hne) (p, f) he
    rw [Heap.getField] at hg
    revert hg
    cases hp : lookupA h.objects p with
    | none => intro hg; cases hg
    | some o => intro hg; exact ⟨o, rfl, hg⟩
  · intro c hdead
    by_cases hmem : c ∈ h.incoming.map Prod.fst
    · rcases hDNI c hmem with h1 | h1
      · rw [hdead] at h1
        cases h1
      · exact h1
    · rw [← lookupA_eq_none_iff] at hmem
      rw [Heap.incomingOf, hmem]
      rfl
  · intro c
    by_cases hmem : c ∈ h.incoming.map Prod.fst
    · exact hNI c hmem
    · rw [← lookupA_eq_none_iff] at hmem
      rw [Heap.incomingOf, hmem]
      exact List.nodup_nil
  · intro id o ho
    exact hFN (id, o) (lookupA_some_mem ho)

/-! ### Witnesses -/

theorem setField_null_mandatory_deletes_witness :
    ((Heap.empty.createObject none []).2.setField 1 "f" Value.vnull true).isLive 1 = false ∧
    ((Heap.empty.createObject none []).2.setField 1 "f" Value.vnull true).getField 1 "f"
      = none :=
  setField_null_mandatory_deletes (Heap.empty.createObject none []).2 1 "f" (by decide)

theorem mandatory_cycle_total_destruction_witness :
    lookupA ((((((Heap.empty.defineType ⟨"C", [⟨"link", false⟩]⟩).createObject (some "C")
      []).2.createObject (some "C") []).2.setField 1 "link" (Value.vnum 2)
      false).setField 2 "link" (Value.vnum 1) false).deleteObjectCascade 1).objects 2
      = none :=
  mandatory_cycle_total_destruction _ [(1, "link"), (2, "link")] 1 "link"
    (consistent_of_bounded _ (by decide) (by decide) (by decide) (by decide))
    ⟨by decide, by decide⟩ (by decide) (2, "link") (by decide)

theorem delete_cascade_isolation_witness :
    ((((Heap.empty.createObject none []).2.createObject none
      []).2).deleteObjectCascade 1).isLive 2 = true :=
  (delete_cascade_isolation (((Heap.empty.createObject none []).2.createObject none []).2) 1 2
    (by decide) (by decide)
    (by
      intro hr
      cases hr with
      | step c p f hc hedge hmand =>
        have hinc : (((Heap.empty.createObject none []).2.createObject none
            []).2).incomingOf c = [] := rfl
        rw [hinc] at hedge
        simp at hedge)).1

theorem numeric_ids_as_references_witness :
    (1, "f") ∈ ((((Heap.empty.createObject none []).2.createObject none []).2).setField 1 "f"
      (Value.vnum 2) false).incomingOf 2 :=
  (numeric_ids_as_references
    (((Heap.empty.createObject none []).2.createObject none []).2)).1 1 "f" 2 false
    ⟨none, []⟩ (by decide) (by decide)

theorem setField_optional_null_frame_witness :
    (((Heap.empty.createObject none [("f", Value.vnum 7)]).2).setField 1 "f"
      Value.vnull false).getField 1 "f" = some Value.vnull :=
  (setField_optional_null_frame ((Heap.empty.createObject none [("f", Value.vnum 7)]).2) 1 "f"
    ⟨none, [("f", Value.vnum 7)]⟩ (by decide)).2.1

theorem setField_dead_noop_witness :
    Heap.empty.setField 5 "x" (Value.vnum 3) true = Heap.empty :=
  setField_dead_noop Heap.empty 5 "x" (Value.vnum 3) true (by decide)

theorem getField_contract_witness :
    (Heap.empty.createObject none [("f", Value.vnum 3)]).2.getField 1 "f"
      = some (Value.vnum 3) :=
  (getField_contract (Heap.empty.createObject none [("f", Value.vnum 3)]).2 1 "f").1
    ⟨none, [("f", Value.vnum 3)]⟩ (Value.vnum 3) (by decide) (by decide)

theorem arrayPush_spec_witness :
    ((Heap.empty.createArray []).2.arrayPush 1 (Value.vbool true)).getField 1 "length"
      = some (Value.vnum 1) :=
  (arrayPush_spec (Heap.empty.createArray []).2 1 (Value.vbool true)
    ⟨some "__array__", [("length", Value.vnum 0)]⟩ 0 (by decide) (by decide) (by decide)).2.1
